import Mathlib

/-!
Verification of the pack-calculator core.

Shallow embedding of the Go sources of the pack-calculator service:

* `internal/calculator/calculator.go` — the dynamic-programming pack solver
  (`NewCalculator`, `Calculate`, `CalculateWithDetails`);
* `internal/cache/cache.go` — the in-memory LRU result cache
  (`MemoryCache.Get/Set/Clear`, `GenerateCacheKey`);
* `internal/handlers/handlers.go` — the HTTP handlers' decision logic
  (`AddPackSize`, `DeletePackSize`, the order-history limit computation).

Go slices and in-place mutation are modelled by explicit value passing;
Go `map` values by association lists; the doubly linked LRU chain by the
list of its keys from head (most recently used) to tail; Go machine
integers by `Nat`/`Int` (all arithmetic in the solver stays far below
2^63, so unbounded integers are faithful; the `math.MaxInt32` sentinel
used by the solver is embedded literally).  Wall-clock time is passed
explicitly as a `Nat` timestamp.
-/

namespace PackCalc

/-! ## The solver (`calculator.go`) -/

/-- `math.MaxInt32`, used by `Calculate` as the "unreachable" sentinel. -/
def maxInt32 : Nat := 2147483647

/-- `type Calculator struct { packSizes []int }`.  In every use in the
repository the sizes are non-negative (the handler rejects `size < 1`),
so they are carried as `Nat`. -/
structure Calculator where
  packSizes : List Nat
deriving DecidableEq

/-- `NewCalculator`: copies the caller's slice and sorts the copy
ascending (`sort.Ints`). -/
def NewCalculator (packSizes : List Nat) : Calculator :=
  { packSizes := packSizes.mergeSort (fun a b => a ≤ b) }

/-- `NewCalculator` together with the contents of the caller's slice after
the call returns.  The Go body allocates a fresh slice, copies the input
into it and sorts the fresh slice in place; the caller's slice is never
written, which this explicit-effect version records in its second
component. -/
def NewCalculatorWithCaller (packSizes : List Nat) : Calculator × List Nat :=
  let sorted := packSizes
  let sorted := sorted.mergeSort (fun a b => a ≤ b)
  ({ packSizes := sorted }, packSizes)

/-- The two arrays `dp` and `parent` of `Calculate`, as total functions on
indices.  Only indices `0 .. maxTarget` are ever read or written. -/
structure DPState where
  dp : Nat → Nat
  parent : Nat → Nat

/-- `dp := make([]int, maxTarget+1)` filled with `math.MaxInt32`, then
`dp[0] = 0`; `parent := make([]int, maxTarget+1)` (zero-filled). -/
def initState : DPState :=
  { dp := fun t => if t = 0 then 0 else maxInt32
    parent := fun _ => 0 }

/-- One iteration of the inner loop of `Calculate`, with `next = i + s`:
`next := i + packSize; if next <= maxTarget && dp[next] > dp[i]+1 {
dp[next] = dp[i]+1; parent[next] = packSize }`. -/
def relaxOne (maxTarget i : Nat) (st : DPState) (s : Nat) : DPState :=
  if i + s ≤ maxTarget then
    if st.dp i + 1 < st.dp (i + s) then
      { dp := Function.update st.dp (i + s) (st.dp i + 1)
        parent := Function.update st.parent (i + s) s }
    else st
  else st

/-- One iteration of the outer loop of `Calculate`: skip the row when
`dp[i] == math.MaxInt32`, otherwise try every pack size. -/
def dpStep (sizes : List Nat) (maxTarget : Nat) (st : DPState) (i : Nat) : DPState :=
  if st.dp i = maxInt32 then st
  else sizes.foldl (relaxOne maxTarget i) st

/-- The full relaxation sweep `for i := 0; i <= maxTarget; i++`. -/
def runDP (sizes : List Nat) (maxTarget : Nat) : DPState :=
  (List.range (maxTarget + 1)).foldl (dpStep sizes maxTarget) initState

/-- A non-negative integer combination over the pack configuration `S`,
given as the list of chosen packs (repetitions allowed): every chosen
pack is a configured size. -/
def Combo (S : List Nat) (l : List Nat) : Prop :=
  ∀ x ∈ l, x ∈ S

/-- The relaxation sweep restricted to the outer-loop indices
`k, k+1, …, k+n-1`, starting from an arbitrary intermediate state;
`runDP sizes mt = sweepFrom sizes mt 0 (mt+1) initState`. -/
def sweepFrom (sizes : List Nat) (maxTarget k n : Nat) (st : DPState) : DPState :=
  (List.range' k n).foldl (dpStep sizes maxTarget) st

/-- The state of the two arrays after the outer loop has processed the
indices `0, …, j-1`. -/
def stateAt (sizes : List Nat) (maxTarget j : Nat) : DPState :=
  sweepFrom sizes maxTarget 0 j initState

/-- The loop invariant of the relaxation sweep, after the outer loop has
processed the indices `0, …, k-1`: `dp 0` is pinned to `0`, every cell is
at most the sentinel, every non-sentinel cell is realised by an actual
combination of that many packs, and every non-sentinel cell other than 0
carries a consistent back-pointer into the already-final region. -/
def Inv (sizes : List Nat) (k : Nat) (st : DPState) : Prop :=
  st.dp 0 = 0 ∧
  (∀ t, st.dp t ≤ maxInt32) ∧
  (∀ t, st.dp t ≠ maxInt32 → ∃ l, Combo sizes l ∧ l.sum = t ∧ l.length = st.dp t) ∧
  (∀ t, t ≠ 0 → st.dp t ≠ maxInt32 →
    st.parent t ∈ sizes ∧ 1 ≤ st.parent t ∧ st.parent t ≤ t ∧ t - st.parent t < k ∧
    st.dp (t - st.parent t) = st.dp t - 1 ∧ st.dp (t - st.parent t) ≠ maxInt32)

/-- The scan `for i := amount; i <= maxTarget; i++ { if dp[i] != MaxInt32
{ bestTotal = i; break } }`; `none` models `bestTotal == -1`. -/
def findBest (dp : Nat → Nat) (amount maxS : Nat) : Option Nat :=
  (List.range' amount (maxS + 1)).find? (fun i => dp i != maxInt32)

/-- The back-tracking loop `for current > 0 { packUsed := parent[current];
packs[packUsed]++; current -= packUsed }`, returning the sequence of
`packUsed` values (the Go `map[int]int` is exactly the multiset of these
values, i.e. their counts).  The loop is embedded with explicit fuel; the
call site passes fuel `bestTotal`, which suffices because every iteration
removes a pack of size at least 1. -/
def reconstruct (parent : Nat → Nat) : Nat → Nat → List Nat
  | 0, _ => []
  | fuel + 1, current =>
    if current = 0 then []
    else
      let packUsed := parent current
      packUsed :: reconstruct parent fuel (current - packUsed)

/-- `func (c *Calculator) Calculate(amount int) (map[int]int, int, error)`.
Returns the list of used pack sizes (whose counts are the Go result map)
and the chosen total. -/
def Calculate (c : Calculator) (amount : Int) : Except String (List Nat × Nat) :=
  if amount ≤ 0 then .error "amount must be positive"
  else if c.packSizes.isEmpty then .error "no pack sizes available"
  else
    let A := amount.toNat
    let maxS := c.packSizes.getLastD 0
    let maxTarget := A + maxS
    let final := runDP c.packSizes maxTarget
    match findBest final.dp A maxS with
    | none => .error "no valid pack combination found"
    | some bestTotal => .ok (reconstruct final.parent bestTotal bestTotal, bestTotal)

/-- `CalculateWithDetails`: also returns the total number of packs, the
sum of the counts of the result map — i.e. the length of the usage list. -/
def CalculateWithDetails (c : Calculator) (amount : Int) :
    Except String (List Nat × Nat × Nat) :=
  match Calculate c amount with
  | .error e => .error e
  | .ok (packs, totalItems) => .ok (packs, totalItems, packs.length)

/-! ## The result cache (`cache.go`) -/

/-- `type cacheItem struct { packs map[int]int; total int; expiration
time.Time }`.  The `node` back-pointer is represented by membership of
the key in the recency chain. -/
structure CacheItem where
  packs : List (Nat × Nat)
  total : Nat
  expiration : Nat
deriving DecidableEq

/-- `type MemoryCache struct`: the key-to-item map as an association
list, the doubly linked LRU list as the list of keys from head (most
recently used) to tail (least recently used), and the two `int64`
counters (they only ever count up from zero, hence `Nat`).  The
`hit_ratio` of `Stats` is a derived `float64` for display and is not
modelled. -/
structure MemoryCache where
  items : List (String × CacheItem)
  chain : List String
  maxSize : Nat
  hits : Nat
  misses : Nat
deriving DecidableEq

/-- `NewMemoryCache`. -/
def NewMemoryCache (maxSize : Nat) : MemoryCache :=
  { items := [], chain := [], maxSize := maxSize, hits := 0, misses := 0 }

/-- `c.items[key]` — the map lookup. -/
def lookupItem (c : MemoryCache) (key : String) : Option CacheItem :=
  (c.items.find? (fun p => p.1 == key)).map (fun p => p.2)

/-- `moveToFront`: unlink the node and re-link it at the head (a no-op
when it already is the head, which the erase-then-cons form reproduces
for a duplicate-free chain). -/
def moveToFront (chain : List String) (key : String) : List String :=
  key :: chain.erase key

/-- `evictLRU`: drop the tail node of the chain and delete its key from
the map (no-op on an empty chain). -/
def evictLRU (c : MemoryCache) : MemoryCache :=
  match c.chain.getLast? with
  | none => c
  | some k =>
    { c with chain := c.chain.dropLast
             items := c.items.eraseP (fun p => p.1 == k) }

/-- `Get`: on a missing or expired key record a miss; otherwise capture
the payload, record a hit and promote the key to the front of the chain.
`time.Now().After(e)` is `now > e`. -/
def MemoryCache.Get (c : MemoryCache) (now : Nat) (key : String) :
    Option (List (Nat × Nat) × Nat) × MemoryCache :=
  match lookupItem c key with
  | none => (none, { c with misses := c.misses + 1 })
  | some item =>
    if now > item.expiration then (none, { c with misses := c.misses + 1 })
    else
      (some (item.packs, item.total),
       { c with hits := c.hits + 1, chain := moveToFront c.chain key })

/-- `Set`: update-and-promote when the key exists; otherwise evict the
least recently used entry when at capacity, then insert at the head. -/
def MemoryCache.Set (c : MemoryCache) (now : Nat) (key : String)
    (packs : List (Nat × Nat)) (total : Nat) (ttl : Nat) : MemoryCache :=
  match lookupItem c key with
  | some _ =>
    { c with
      items := c.items.map
        (fun p => if p.1 = key then (key, ⟨packs, total, now + ttl⟩) else p)
      chain := moveToFront c.chain key }
  | none =>
    let c1 := if c.items.length ≥ c.maxSize then evictLRU c else c
    { c1 with
      items := (key, ⟨packs, total, now + ttl⟩) :: c1.items
      chain := key :: c1.chain }

/-- `Clear`: drop the map and the chain and reset both counters. -/
def MemoryCache.Clear (c : MemoryCache) : MemoryCache :=
  { c with items := [], chain := [], hits := 0, misses := 0 }

/-- One cache operation, for reasoning about operation sequences. -/
inductive CacheOp where
  | get (now : Nat) (key : String)
  | set (now : Nat) (key : String) (packs : List (Nat × Nat)) (total : Nat) (ttl : Nat)
  | clear
deriving DecidableEq

/-- Apply one operation to the cache state. -/
def applyOp (c : MemoryCache) : CacheOp → MemoryCache
  | .get now key => (c.Get now key).2
  | .set now key packs total ttl => c.Set now key packs total ttl
  | .clear => c.Clear

/-- Run a sequence of operations. -/
def runOps (c : MemoryCache) (ops : List CacheOp) : MemoryCache :=
  ops.foldl applyOp c

/-- Whether an operation is a `Get`. -/
def isGet : CacheOp → Bool
  | .get _ _ => true
  | _ => false

/-- Whether an operation is a `Clear`. -/
def isClear : CacheOp → Bool
  | .clear => true
  | _ => false

/-- The argument tuple of one `Set` call: key, wall-clock instant, packs
payload, total, ttl. -/
def SetOp : Type := String × Nat × List (Nat × Nat) × Nat × Nat

/-- Apply one `Set` call. -/
def applySet (c : MemoryCache) (e : SetOp) : MemoryCache :=
  c.Set e.2.1 e.1 e.2.2.1 e.2.2.2.1 e.2.2.2.2

/-- Run a sequence of `Set` calls against a fresh cache of capacity `C`. -/
def runSets (C : Nat) (es : List SetOp) : MemoryCache :=
  es.foldl applySet (NewMemoryCache C)

/-- The keys of a sequence of `Set` calls. -/
def keysOf (es : List SetOp) : List String :=
  es.map (fun e => e.1)

/-- The LRU structural invariant, relative to the keys touched so far,
most recent first: the chain holds the `C` most recently touched keys,
the map holds exactly the chained keys (one entry each), and map and
chain have the same cardinality. -/
def CacheInv (C : Nat) (done : List String) (st : MemoryCache) : Prop :=
  st.maxSize = C ∧
  st.chain = done.take C ∧
  (st.items.map Prod.fst).Nodup ∧
  st.items.length = st.chain.length ∧
  (∀ x, (∃ it, (x, it) ∈ st.items) ↔ x ∈ st.chain)

/-- The decimal digit characters of a natural number, most significant
first: the abstract form of `Nat.repr` (which `strconv.Itoa` matches),
used to reason about the cache-key string. -/
def natChars (n : Nat) : List Char :=
  if _h : n < 10 then [Nat.digitChar n]
  else natChars (n / 10) ++ [Nat.digitChar (n % 10)]
decreasing_by omega

/-- Horner evaluation of decimal digit characters, the left inverse of
`natChars`. -/
def charsVal (cs : List Char) : Nat :=
  cs.foldl (fun acc c => 10 * acc + (c.toNat - 48)) 0

/-- The characters `strconv.Itoa`/`Int.repr` emits for an integer. -/
def intChars : Int → List Char
  | .ofNat m => natChars m
  | .negSucc m => '-' :: natChars (m + 1)

/-- `GenerateCacheKey`'s builder loop over the pack sizes: the first size
is written bare, every further size behind a comma. -/
def sizesPart : List Int → String
  | [] => ""
  | [s] => toString s
  | s :: s2 :: rest => toString s ++ "," ++ sizesPart (s2 :: rest)

/-- `GenerateCacheKey`: `"calc:" + Itoa(amount) + ":" + sizes joined by
commas`, exactly as the `strings.Builder` sequence writes it. -/
def GenerateCacheKey (amount : Int) (packSizes : List Int) : String :=
  "calc:" ++ toString amount ++ ":" ++ sizesPart packSizes

/-! ## The handlers (`handlers.go`) -/

/-- The state an HTTP handler can touch: the persistent pack store (the
`pack_sizes` table, a duplicate-free list of sizes) and the result
cache. -/
structure AppState where
  packSizes : List Int
  cache : MemoryCache
deriving DecidableEq

/-- `AddPackSize` after JSON decoding, returning the HTTP status and the
new state: reject `size < 1` with 400, an existing size with 409;
otherwise insert the size, clear the cache and answer 201. -/
def AddPackSize (st : AppState) (size : Int) : Nat × AppState :=
  if size < 1 then (400, st)
  else if size ∈ st.packSizes then (409, st)
  else
    (201, { packSizes := st.packSizes ++ [size], cache := st.cache.Clear })

/-- `DeletePackSize` after URL parsing, returning the HTTP status and the
new state: deleting an absent size fails in the repository
(`RowsAffected == 0`) and answers 404 without touching the cache;
otherwise remove the size, clear the cache and answer 200. -/
def DeletePackSize (st : AppState) (size : Int) : Nat × AppState :=
  if size ∈ st.packSizes then
    (200, { packSizes := st.packSizes.erase size, cache := st.cache.Clear })
  else (404, st)

/-- Decimal digit value of a character, `none` for a non-digit. -/
def digitVal (ch : Char) : Option Nat :=
  if '0' ≤ ch ∧ ch ≤ '9' then some (ch.toNat - 48) else none

/-- Accumulate decimal digits left to right; any non-digit fails. -/
def parseDigits (cs : List Char) : Option Nat :=
  cs.foldl
    (fun acc ch =>
      match acc, digitVal ch with
      | some n, some d => some (n * 10 + d)
      | _, _ => none)
    (some 0)

/-- `strconv.Atoi`: an optional sign followed by at least one decimal
digit and nothing else; magnitudes outside the 64-bit range are a range
error. -/
def Atoi (s : String) : Option Int :=
  match s.data with
  | '+' :: rest =>
    if rest = [] then none
    else
      match parseDigits rest with
      | none => none
      | some n => if n ≤ 9223372036854775807 then some (n : Int) else none
  | '-' :: rest =>
    if rest = [] then none
    else
      match parseDigits rest with
      | none => none
      | some n => if n ≤ 9223372036854775808 then some (-(n : Int)) else none
  | cs =>
    if cs = [] then none
    else
      match parseDigits cs with
      | none => none
      | some n => if n ≤ 9223372036854775807 then some (n : Int) else none

/-- The limit computation of `GetOrders`: start from the default 100 and
replace it by the parsed query parameter when that parses and is
positive. -/
def getOrdersLimit (limitStr : String) : Int :=
  if limitStr = "" then 100
  else
    match Atoi limitStr with
    | some l => if l > 0 then l else 100
    | none => 100

/-! ## Lemmas about the relaxation sweep -/

theorem relaxOne_dp_le (maxTarget i : Nat) (st : DPState) (s t : Nat) :
    (relaxOne maxTarget i st s).dp t ≤ st.dp t := by
  unfold relaxOne
  by_cases h1 : i + s ≤ maxTarget
  · by_cases h2 : st.dp i + 1 < st.dp (i + s)
    · simp only [if_pos h1, if_pos h2]
      by_cases ht : t = i + s
      · subst ht; simp only [Function.update_same]; omega
      · simp only [Function.update_noteq ht]; exact le_refl _
    · simp only [if_pos h1, if_neg h2]; exact le_refl _
  · simp only [if_neg h1]; exact le_refl _

theorem relaxOne_stable (maxTarget i : Nat) (st : DPState) (s t : Nat) (ht : t ≤ i) :
    (relaxOne maxTarget i st s).dp t = st.dp t ∧
    (relaxOne maxTarget i st s).parent t = st.parent t := by
  unfold relaxOne
  by_cases h1 : i + s ≤ maxTarget
  · by_cases h2 : st.dp i + 1 < st.dp (i + s)
    · have hne : t ≠ i + s := by
        intro he
        have hs : s = 0 := by omega
        rw [hs] at h2
        simp only [Nat.add_zero] at h2
        omega
      simp only [if_pos h1, if_pos h2, Function.update_noteq hne, and_self]
    · simp only [if_pos h1, if_neg h2, and_self]
  · simp only [if_neg h1, and_self]

theorem foldRelax_dp_le (maxTarget i : Nat) (sl : List Nat) (st : DPState) (t : Nat) :
    (sl.foldl (relaxOne maxTarget i) st).dp t ≤ st.dp t := by
  induction sl generalizing st with
  | nil => simp [List.foldl]
  | cons s sl ih =>
    simpa [List.foldl] using
      le_trans (ih (relaxOne maxTarget i st s)) (relaxOne_dp_le maxTarget i st s t)

theorem foldRelax_stable (maxTarget i : Nat) (sl : List Nat) (st : DPState) (t : Nat)
    (ht : t ≤ i) :
    (sl.foldl (relaxOne maxTarget i) st).dp t = st.dp t ∧
    (sl.foldl (relaxOne maxTarget i) st).parent t = st.parent t := by
  induction sl generalizing st with
  | nil => simp [List.foldl]
  | cons s sl ih =>
    have h1 := relaxOne_stable maxTarget i st s t ht
    have h2 := ih (relaxOne maxTarget i st s)
    simp only [List.foldl]
    exact ⟨h2.1.trans h1.1, h2.2.trans h1.2⟩

theorem dpStep_dp_le (sizes : List Nat) (maxTarget : Nat) (st : DPState) (i t : Nat) :
    (dpStep sizes maxTarget st i).dp t ≤ st.dp t := by
  unfold dpStep
  by_cases h : st.dp i = maxInt32
  · simp [if_pos h]
  · simp only [if_neg h]; exact foldRelax_dp_le maxTarget i sizes st t

theorem dpStep_stable (sizes : List Nat) (maxTarget : Nat) (st : DPState) (i t : Nat)
    (ht : t ≤ i) :
    (dpStep sizes maxTarget st i).dp t = st.dp t ∧
    (dpStep sizes maxTarget st i).parent t = st.parent t := by
  unfold dpStep
  by_cases h : st.dp i = maxInt32
  · simp [if_pos h]
  · simp only [if_neg h]; exact foldRelax_stable maxTarget i sizes st t ht

theorem sweepFrom_dp_le (sizes : List Nat) (maxTarget : Nat) (k n : Nat) (st : DPState)
    (t : Nat) : (sweepFrom sizes maxTarget k n st).dp t ≤ st.dp t := by
  induction n generalizing k st with
  | zero => simp [sweepFrom, List.range']
  | succ n ih =>
    have hr : List.range' k (n + 1) = k :: List.range' (k + 1) n := by
      simp [List.range'_succ]
    simp only [sweepFrom, hr, List.foldl]
    exact le_trans (ih (k + 1) (dpStep sizes maxTarget st k))
      (dpStep_dp_le sizes maxTarget st k t)

theorem sweepFrom_stable (sizes : List Nat) (maxTarget : Nat) (k n : Nat) (st : DPState)
    (t : Nat) (ht : t ≤ k) :
    (sweepFrom sizes maxTarget k n st).dp t = st.dp t ∧
    (sweepFrom sizes maxTarget k n st).parent t = st.parent t := by
  induction n generalizing k st with
  | zero => simp [sweepFrom, List.range']
  | succ n ih =>
    have hr : List.range' k (n + 1) = k :: List.range' (k + 1) n := by
      simp [List.range'_succ]
    simp only [sweepFrom, hr, List.foldl]
    have h1 := dpStep_stable sizes maxTarget st k t ht
    have h2 := ih (k + 1) (dpStep sizes maxTarget st k) (by omega)
    simp only [sweepFrom] at h2
    exact ⟨h2.1.trans h1.1, h2.2.trans h1.2⟩

theorem sweepFrom_split (sizes : List Nat) (maxTarget : Nat) (k m n : Nat) (st : DPState) :
    sweepFrom sizes maxTarget k (m + n) st =
    sweepFrom sizes maxTarget (k + m) n (sweepFrom sizes maxTarget k m st) := by
  have hr : List.range' k (m + n) = List.range' k m ++ List.range' (k + m) n := by
    have h := List.range'_append k m n 1
    simp only [one_mul] at h
    rw [Nat.add_comm m n]
    exact h.symm
  unfold sweepFrom
  rw [hr, List.foldl_append]

theorem stateAt_succ (sizes : List Nat) (maxTarget j : Nat) :
    stateAt sizes maxTarget (j + 1) =
    dpStep sizes maxTarget (stateAt sizes maxTarget j) j := by
  unfold stateAt
  rw [sweepFrom_split sizes maxTarget 0 j 1]
  simp [sweepFrom, List.range'_succ, List.range']

theorem runDP_eq_stateAt (sizes : List Nat) (maxTarget : Nat) :
    runDP sizes maxTarget = stateAt sizes maxTarget (maxTarget + 1) := by
  simp [runDP, stateAt, sweepFrom, List.range_eq_range']

theorem Inv_mono (sizes : List Nat) (k k' : Nat) (st : DPState) (hk : k ≤ k')
    (h : Inv sizes k st) : Inv sizes k' st := by
  obtain ⟨h0, hle, hsound, hpar⟩ := h
  refine ⟨h0, hle, hsound, fun t ht hdp => ?_⟩
  obtain ⟨p1, p2, p3, p4, p5, p6⟩ := hpar t ht hdp
  exact ⟨p1, p2, p3, by omega, p5, p6⟩

theorem relaxOne_inv (sizes : List Nat) (maxTarget k : Nat) (st : DPState) (s : Nat)
    (hs : s ∈ sizes) (hdpk : st.dp k ≠ maxInt32) (hinv : Inv sizes (k + 1) st) :
    Inv sizes (k + 1) (relaxOne maxTarget k st s) := by
  obtain ⟨h0, hle, hsound, hpar⟩ := hinv
  unfold relaxOne
  by_cases h1 : k + s ≤ maxTarget
  · by_cases h2 : st.dp k + 1 < st.dp (k + s)
    · simp only [if_pos h1, if_pos h2]
      have hs1 : 1 ≤ s := by
        by_contra hcon
        have hz : s = 0 := by omega
        rw [hz] at h2
        simp only [Nat.add_zero] at h2
        omega
      have hne0 : (0 : Nat) ≠ k + s := by omega
      have hkne : k ≠ k + s := by omega
      have eSame : Function.update st.dp (k + s) (st.dp k + 1) (k + s) = st.dp k + 1 :=
        Function.update_same _ _ _
      have eK : Function.update st.dp (k + s) (st.dp k + 1) k = st.dp k :=
        Function.update_noteq hkne _ _
      have ePar : Function.update st.parent (k + s) s (k + s) = s :=
        Function.update_same _ _ _
      refine ⟨?_, ?_, ?_, ?_⟩
      · show Function.update st.dp (k + s) (st.dp k + 1) 0 = 0
        rw [Function.update_noteq hne0]
        exact h0
      · intro t
        show Function.update st.dp (k + s) (st.dp k + 1) t ≤ maxInt32
        by_cases ht : t = k + s
        · subst ht
          rw [eSame]
          have := hle k
          omega
        · rw [Function.update_noteq ht]
          exact hle t
      · intro t hdp
        show ∃ l, Combo sizes l ∧ l.sum = t ∧
          l.length = Function.update st.dp (k + s) (st.dp k + 1) t
        by_cases ht : t = k + s
        · subst ht
          rw [eSame]
          obtain ⟨l, hl, hlsum, hllen⟩ := hsound k hdpk
          refine ⟨l ++ [s], ?_, ?_, ?_⟩
          · intro x hx
            rcases List.mem_append.mp hx with hx | hx
            · exact hl x hx
            · simp only [List.mem_singleton] at hx
              exact hx ▸ hs
          · simp [List.sum_append, hlsum]
          · simp [List.length_append, hllen]
        · have hdp' : st.dp t ≠ maxInt32 := by
            have : Function.update st.dp (k + s) (st.dp k + 1) t = st.dp t :=
              Function.update_noteq ht _ _
            dsimp only at hdp
            rwa [this] at hdp
          rw [Function.update_noteq ht]
          exact hsound t hdp'
      · intro t ht hdp
        dsimp only at hdp ⊢
        by_cases htk : t = k + s
        · subst htk
          have hsub : k + s - s = k := by omega
          rw [eSame, ePar, hsub, eK]
          exact ⟨hs, hs1, by omega, by omega, by omega, hdpk⟩
        · rw [Function.update_noteq htk] at hdp
          obtain ⟨p1, p2, p3, p4, p5, p6⟩ := hpar t ht hdp
          have hne2 : t - st.parent t ≠ k + s := by omega
          rw [Function.update_noteq htk, Function.update_noteq htk,
            Function.update_noteq hne2]
          exact ⟨p1, p2, p3, by omega, p5, p6⟩
    · simp only [if_pos h1, if_neg h2]
      exact ⟨h0, hle, hsound, hpar⟩
  · simp only [if_neg h1]
    exact ⟨h0, hle, hsound, hpar⟩

theorem foldRelax_inv (sizes : List Nat) (maxTarget k : Nat) (sl : List Nat)
    (st : DPState) (hsub : ∀ x ∈ sl, x ∈ sizes) (hdpk : st.dp k ≠ maxInt32)
    (hinv : Inv sizes (k + 1) st) :
    Inv sizes (k + 1) (sl.foldl (relaxOne maxTarget k) st) := by
  induction sl generalizing st with
  | nil => simpa [List.foldl]
  | cons s sl ih =>
    simp only [List.foldl]
    have hstable := (relaxOne_stable maxTarget k st s k (le_refl k)).1
    exact ih (relaxOne maxTarget k st s)
      (fun x hx => hsub x (List.mem_cons_of_mem s hx))
      (by rw [hstable]; exact hdpk)
      (relaxOne_inv sizes maxTarget k st s (hsub s (List.mem_cons_self s sl)) hdpk hinv)

theorem dpStep_inv (sizes : List Nat) (maxTarget k : Nat) (st : DPState)
    (hinv : Inv sizes k st) :
    Inv sizes (k + 1) (dpStep sizes maxTarget st k) := by
  unfold dpStep
  by_cases h : st.dp k = maxInt32
  · simpa [if_pos h] using Inv_mono sizes k (k + 1) st (by omega) hinv
  · simp only [if_neg h]
    exact foldRelax_inv sizes maxTarget k sizes st (fun x hx => hx) h
      (Inv_mono sizes k (k + 1) st (by omega) hinv)

theorem initState_inv (sizes : List Nat) : Inv sizes 0 initState := by
  refine ⟨rfl, ?_, ?_, ?_⟩
  · intro t
    by_cases ht : t = 0 <;> simp [initState, ht, maxInt32]
  · intro t hdp
    by_cases ht : t = 0
    · subst ht
      exact ⟨[], fun x hx => absurd hx (List.not_mem_nil x), rfl, rfl⟩
    · simp [initState, ht] at hdp
  · intro t ht hdp
    simp [initState, ht] at hdp

theorem stateAt_inv (sizes : List Nat) (maxTarget : Nat) :
    ∀ j, Inv sizes j (stateAt sizes maxTarget j) := by
  intro j
  induction j with
  | zero =>
    have : stateAt sizes maxTarget 0 = initState := by
      simp [stateAt, sweepFrom, List.range']
    rw [this]
    exact initState_inv sizes
  | succ j ih =>
    rw [stateAt_succ]
    exact dpStep_inv sizes maxTarget j (stateAt sizes maxTarget j) ih

theorem runDP_inv (sizes : List Nat) (maxTarget : Nat) :
    Inv sizes (maxTarget + 1) (runDP sizes maxTarget) := by
  rw [runDP_eq_stateAt]
  exact stateAt_inv sizes maxTarget (maxTarget + 1)

theorem runDP_dp_zero (sizes : List Nat) (maxTarget : Nat) :
    (runDP sizes maxTarget).dp 0 = 0 :=
  (runDP_inv sizes maxTarget).1

theorem runDP_dp_le_sentinel (sizes : List Nat) (maxTarget t : Nat) :
    (runDP sizes maxTarget).dp t ≤ maxInt32 :=
  (runDP_inv sizes maxTarget).2.1 t

theorem runDP_sound (sizes : List Nat) (maxTarget t : Nat)
    (h : (runDP sizes maxTarget).dp t ≠ maxInt32) :
    ∃ l, Combo sizes l ∧ l.sum = t ∧ l.length = (runDP sizes maxTarget).dp t :=
  (runDP_inv sizes maxTarget).2.2.1 t h

theorem runDP_dp_pos (sizes : List Nat) (maxTarget t : Nat) (ht : t ≠ 0)
    (h : (runDP sizes maxTarget).dp t ≠ maxInt32) :
    1 ≤ (runDP sizes maxTarget).dp t := by
  obtain ⟨l, hl, hsum, hlen⟩ := runDP_sound sizes maxTarget t h
  rcases l with _ | ⟨x, l⟩
  · simp at hsum; omega
  · simp at hlen; omega

theorem relaxOne_self_le (maxTarget i : Nat) (st : DPState) (s : Nat)
    (h1 : i + s ≤ maxTarget) :
    (relaxOne maxTarget i st s).dp (i + s) ≤ st.dp i + 1 := by
  unfold relaxOne
  by_cases h2 : st.dp i + 1 < st.dp (i + s)
  · simp [if_pos h1, if_pos h2, Function.update_same]
  · simp only [if_pos h1, if_neg h2]
    omega

theorem foldRelax_relaxes (maxTarget i : Nat) (sl : List Nat) (st : DPState) (s : Nat)
    (hs : s ∈ sl) (h1 : i + s ≤ maxTarget) :
    (sl.foldl (relaxOne maxTarget i) st).dp (i + s) ≤ st.dp i + 1 := by
  induction sl generalizing st with
  | nil => exact absurd hs (List.not_mem_nil s)
  | cons a sl ih =>
    simp only [List.foldl]
    rcases List.mem_cons.mp hs with rfl | hmem
    · exact le_trans (foldRelax_dp_le maxTarget i sl (relaxOne maxTarget i st s) (i + s))
        (relaxOne_self_le maxTarget i st s h1)
    · have := ih (relaxOne maxTarget i st a) hmem
      rwa [(relaxOne_stable maxTarget i st a i (le_refl i)).1] at this

theorem dp_complete (sizes : List Nat) (maxTarget : Nat) :
    ∀ (l : List Nat), Combo sizes l → l.sum ≤ maxTarget → l.length < maxInt32 →
    (runDP sizes maxTarget).dp l.sum ≤ l.length := by
  intro l
  induction l with
  | nil =>
    intro _ _ _
    simp [runDP_dp_zero]
  | cons s rest ih =>
    intro hcombo hsum hlen
    have hrest : Combo sizes rest := fun x hx => hcombo x (List.mem_cons_of_mem s hx)
    have hsmem : s ∈ sizes := hcombo s (List.mem_cons_self s rest)
    have hsum' : s + rest.sum = (s :: rest).sum := by simp
    have hi : rest.sum ≤ maxTarget := by
      have : rest.sum ≤ (s :: rest).sum := by simp
      omega
    have hilen : rest.length < maxInt32 := by
      simp only [List.length_cons] at hlen
      omega
    have hIH : (runDP sizes maxTarget).dp rest.sum ≤ rest.length := ih hrest hi hilen
    set i := rest.sum with hidef
    -- decompose the sweep at index i
    have hdecomp : runDP sizes maxTarget =
        sweepFrom sizes maxTarget (i + 1) (maxTarget - i)
          (stateAt sizes maxTarget (i + 1)) := by
      rw [runDP_eq_stateAt]
      unfold stateAt
      rw [show maxTarget + 1 = (i + 1) + (maxTarget - i) by omega,
        sweepFrom_split sizes maxTarget 0 (i + 1) (maxTarget - i)]
      simp
    -- dp i is final from stage i on
    have hfin1 : (stateAt sizes maxTarget (i + 1)).dp i = (runDP sizes maxTarget).dp i := by
      rw [hdecomp]
      exact (sweepFrom_stable sizes maxTarget (i + 1) (maxTarget - i)
        (stateAt sizes maxTarget (i + 1)) i (by omega)).1.symm
    have hfin2 : (stateAt sizes maxTarget i).dp i =
        (stateAt sizes maxTarget (i + 1)).dp i := by
      rw [stateAt_succ]
      exact (dpStep_stable sizes maxTarget (stateAt sizes maxTarget i) i i (le_refl i)).1.symm
    have hne : (stateAt sizes maxTarget i).dp i ≠ maxInt32 := by
      rw [hfin2, hfin1]
      intro hcon
      rw [hcon] at hIH
      omega
    have hnext : i + s ≤ maxTarget := by
      have : (s :: rest).sum = s + i := by simp [hidef]
      omega
    have hstep : (stateAt sizes maxTarget (i + 1)).dp (i + s) ≤
        (stateAt sizes maxTarget i).dp i + 1 := by
      rw [stateAt_succ]
      unfold dpStep
      rw [if_neg hne]
      exact foldRelax_relaxes maxTarget i sizes (stateAt sizes maxTarget i) s hsmem hnext
    have hfinal : (runDP sizes maxTarget).dp (i + s) ≤
        (stateAt sizes maxTarget (i + 1)).dp (i + s) := by
      rw [hdecomp]
      exact sweepFrom_dp_le sizes maxTarget (i + 1) (maxTarget - i) _ (i + s)
    have : (s :: rest).sum = i + s := by simp [hidef, Nat.add_comm]
    rw [this]
    have : (s :: rest).length = rest.length + 1 := by simp
    rw [this]
    omega

theorem find?_range'_spec (p : Nat → Bool) (n : Nat) : ∀ (a : Nat),
    ((List.range' a n).find? p = none → ∀ t, a ≤ t → t < a + n → p t = false) ∧
    (∀ T, (List.range' a n).find? p = some T →
      a ≤ T ∧ T < a + n ∧ p T = true ∧ ∀ t, a ≤ t → t < T → p t = false) := by
  induction n with
  | zero =>
    intro a
    constructor
    · intro _ t h1 h2
      omega
    · intro T hT
      simp [List.range'] at hT
  | succ n ih =>
    intro a
    rw [List.range'_succ]
    by_cases hpa : p a
    · constructor
      · intro hnone
        rw [List.find?_cons_of_pos _ hpa] at hnone
        exact absurd hnone (by simp)
      · intro T hT
        rw [List.find?_cons_of_pos _ hpa] at hT
        have hTa : T = a := by simpa using hT.symm
        subst hTa
        exact ⟨le_refl T, by omega, hpa, fun t h1 h2 => by omega⟩
    · have hfold : (a :: List.range' (a + 1) n).find? p = (List.range' (a + 1) n).find? p :=
        List.find?_cons_of_neg _ (by simpa using hpa)
      constructor
      · intro hnone t h1 h2
        rw [hfold] at hnone
        by_cases hta : t = a
        · subst hta; simpa using hpa
        · exact (ih (a + 1)).1 hnone t (by omega) (by omega)
      · intro T hT
        rw [hfold] at hT
        obtain ⟨q1, q2, q3, q4⟩ := (ih (a + 1)).2 T hT
        refine ⟨by omega, by omega, q3, fun t h1 h2 => ?_⟩
        by_cases hta : t = a
        · subst hta; simpa using hpa
        · exact q4 t (by omega) h2

theorem findBest_none (dp : Nat → Nat) (a maxS : Nat)
    (h : findBest dp a maxS = none) :
    ∀ t, a ≤ t → t ≤ a + maxS → dp t = maxInt32 := by
  intro t h1 h2
  have := (find?_range'_spec (fun i => dp i != maxInt32) (maxS + 1) a).1 h t h1 (by omega)
  simpa using this

theorem findBest_some (dp : Nat → Nat) (a maxS T : Nat)
    (h : findBest dp a maxS = some T) :
    a ≤ T ∧ T ≤ a + maxS ∧ dp T ≠ maxInt32 ∧ ∀ t, a ≤ t → t < T → dp t = maxInt32 := by
  obtain ⟨q1, q2, q3, q4⟩ :=
    (find?_range'_spec (fun i => dp i != maxInt32) (maxS + 1) a).2 T h
  refine ⟨q1, by omega, by simpa using q3, fun t h1 h2 => ?_⟩
  simpa using q4 t h1 h2

theorem reconstruct_spec (sizes : List Nat) (maxTarget : Nat) :
    ∀ (fuel current : Nat), current ≤ fuel →
    (runDP sizes maxTarget).dp current ≠ maxInt32 →
    Combo sizes (reconstruct (runDP sizes maxTarget).parent fuel current) ∧
    (reconstruct (runDP sizes maxTarget).parent fuel current).sum = current ∧
    (reconstruct (runDP sizes maxTarget).parent fuel current).length =
      (runDP sizes maxTarget).dp current := by
  intro fuel
  induction fuel with
  | zero =>
    intro current hle hdp
    have : current = 0 := by omega
    subst this
    refine ⟨fun x hx => absurd hx (List.not_mem_nil x), rfl, ?_⟩
    simp [reconstruct, runDP_dp_zero]
  | succ fuel ih =>
    intro current hle hdp
    by_cases hc : current = 0
    · subst hc
      have hre : reconstruct (runDP sizes maxTarget).parent (fuel + 1) 0 = [] := by
        simp [reconstruct]
      rw [hre]
      exact ⟨fun x hx => absurd hx (List.not_mem_nil x), rfl, by
        simp [runDP_dp_zero]⟩
    · obtain ⟨p1, p2, p3, p4, p5, p6⟩ :=
        (runDP_inv sizes maxTarget).2.2.2 current hc hdp
      set p := (runDP sizes maxTarget).parent current with hp
      have hrec : reconstruct (runDP sizes maxTarget).parent (fuel + 1) current =
          p :: reconstruct (runDP sizes maxTarget).parent fuel (current - p) := by
        simp [reconstruct, hc]
      obtain ⟨r1, r2, r3⟩ := ih (current - p) (by omega) p6
      have hdpos : 1 ≤ (runDP sizes maxTarget).dp current :=
        runDP_dp_pos sizes maxTarget current hc hdp
      rw [hrec]
      refine ⟨?_, ?_, ?_⟩
      · intro x hx
        rcases List.mem_cons.mp hx with rfl | hx
        · exact p1
        · exact r1 x hx
      · simp only [List.sum_cons, r2]
        omega
      · simp only [List.length_cons, r3, p5]
        omega

/-! ## Assembling `Calculate` -/

theorem getLastD_mem : ∀ (l : List Nat), l ≠ [] → ∀ a, l.getLastD a ∈ l := by
  intro l
  induction l with
  | nil => intro h; contradiction
  | cons b l ih =>
    intro _ a
    rw [List.getLastD_cons]
    by_cases hl : l = []
    · subst hl
      simp [List.getLastD_nil]
    · exact List.mem_cons_of_mem b (ih hl b)

theorem exists_min (l : List Nat) (h : l ≠ []) : ∃ m ∈ l, ∀ x ∈ l, m ≤ x := by
  induction l with
  | nil => contradiction
  | cons a l ih =>
    by_cases hl : l = []
    · subst hl
      refine ⟨a, List.mem_cons_self a [], fun x hx => ?_⟩
      simp only [List.mem_singleton] at hx
      omega
    · obtain ⟨m, hm, hmin⟩ := ih hl
      by_cases hab : a ≤ m
      · refine ⟨a, List.mem_cons_self a l, fun x hx => ?_⟩
        rcases List.mem_cons.mp hx with rfl | hx
        · exact le_refl x
        · exact le_trans hab (hmin x hx)
      · refine ⟨m, List.mem_cons_of_mem a hm, fun x hx => ?_⟩
        rcases List.mem_cons.mp hx with rfl | hx
        · omega
        · exact hmin x hx

theorem length_mul_le_sum (m : List Nat) (c : Nat) (h : ∀ x ∈ m, c ≤ x) :
    m.length * c ≤ m.sum := by
  induction m with
  | nil => simp
  | cons a m ih =>
    have h1 := h a (List.mem_cons_self a m)
    have h2 := ih (fun x hx => h x (List.mem_cons_of_mem a hx))
    simp only [List.length_cons, List.sum_cons]
    have h3 : (m.length + 1) * c = m.length * c + c := by ring
    omega

theorem ceil_div_bounds (A s : Nat) (hA : 1 ≤ A) (hs : 1 ≤ s) :
    A ≤ ((A + s - 1) / s) * s ∧ ((A + s - 1) / s) * s ≤ A + s - 1 ∧
    (A + s - 1) / s ≤ A := by
  have hdm := Nat.div_add_mod (A + s - 1) s
  have hr : (A + s - 1) % s < s := Nat.mod_lt _ (by omega)
  refine ⟨?_, ?_, ?_⟩
  · rw [Nat.mul_comm]
    omega
  · rw [Nat.mul_comm]
    omega
  · by_contra hcon
    push_neg at hcon
    have h1 : s * (A + 1) ≤ s * ((A + s - 1) / s) := Nat.mul_le_mul_left s (by omega)
    have h2 : s * (A + 1) = s * A + s := by ring
    have h3 : A ≤ s * A := Nat.le_mul_of_pos_left A (by omega)
    omega

theorem Calculate_valid (c : Calculator) (amount : Int) (h1 : ¬amount ≤ 0)
    (h2 : ¬c.packSizes.isEmpty = true) :
    Calculate c amount =
      (match findBest (runDP c.packSizes (amount.toNat + c.packSizes.getLastD 0)).dp
          amount.toNat (c.packSizes.getLastD 0) with
        | none => Except.error "no valid pack combination found"
        | some bestTotal =>
          Except.ok
            (reconstruct
              (runDP c.packSizes (amount.toNat + c.packSizes.getLastD 0)).parent
              bestTotal bestTotal, bestTotal)) := by
  unfold Calculate
  rw [if_neg h1, if_neg h2]

theorem solver_core (sorted : List Nat) (A : Nat)
    (hsne : sorted ≠ []) (hpos : ∀ x ∈ sorted, 1 ≤ x) (hA1 : 1 ≤ A)
    (hA2 : A < maxInt32) :
    ∃ T,
      findBest (runDP sorted (A + sorted.getLastD 0)).dp A (sorted.getLastD 0) = some T ∧
      Combo sorted (reconstruct (runDP sorted (A + sorted.getLastD 0)).parent T T) ∧
      (reconstruct (runDP sorted (A + sorted.getLastD 0)).parent T T).sum = T ∧
      A ≤ T ∧
      (∀ m, Combo sorted m → ¬(A ≤ m.sum ∧ m.sum < T)) ∧
      (∀ m, Combo sorted m → m.sum = T →
        (reconstruct (runDP sorted (A + sorted.getLastD 0)).parent T T).length ≤ m.length) := by
  set maxS := sorted.getLastD 0 with hmaxS
  have hmaxmem : maxS ∈ sorted := getLastD_mem sorted hsne 0
  have hmax1 : 1 ≤ maxS := hpos maxS hmaxmem
  set mt := A + maxS with hmt
  obtain ⟨smin, hsminmem, hsminle⟩ := exists_min sorted hsne
  have hsmin1 : 1 ≤ smin := hpos smin hsminmem
  have hsminmax : smin ≤ maxS := hsminle maxS hmaxmem
  obtain ⟨hc1, hc2, hc3⟩ := ceil_div_bounds A smin hA1 hsmin1
  set q := (A + smin - 1) / smin with hq
  have hcombo0 : Combo sorted (List.replicate q smin) := by
    intro x hx
    rw [List.eq_of_mem_replicate hx]
    exact hsminmem
  have hsum0 : (List.replicate q smin).sum = q * smin := by
    simp [List.sum_replicate, smul_eq_mul]
  have hlen0 : (List.replicate q smin).length = q := List.length_replicate q smin
  have hqlt : q < maxInt32 := lt_of_le_of_lt hc3 hA2
  have ht0mt : q * smin ≤ mt := by omega
  have hdp0 : (runDP sorted mt).dp (q * smin) ≤ q := by
    have h := dp_complete sorted mt (List.replicate q smin) hcombo0
      (by rw [hsum0]; exact ht0mt) (by rw [hlen0]; exact hqlt)
    rwa [hsum0, hlen0] at h
  have hdp0ne : (runDP sorted mt).dp (q * smin) ≠ maxInt32 := by omega
  cases hfb : findBest (runDP sorted mt).dp A maxS with
  | none =>
    exact absurd (findBest_none (runDP sorted mt).dp A maxS hfb (q * smin) hc1 (by omega))
      hdp0ne
  | some T =>
    obtain ⟨hTa, hTb, hTne, hTmin⟩ := findBest_some (runDP sorted mt).dp A maxS T hfb
    have hTt0 : T ≤ q * smin := by
      by_contra hcon
      push_neg at hcon
      exact hdp0ne (hTmin (q * smin) hc1 hcon)
    obtain ⟨hrc, hrs, hrl⟩ := reconstruct_spec sorted mt T T (le_refl T) hTne
    refine ⟨T, rfl, hrc, hrs, hTa, ?_, ?_⟩
    · intro m hm hcontra
      obtain ⟨hm1, hm2⟩ := hcontra
      by_cases hml : m.length < maxInt32
      · have hdpm := dp_complete sorted mt m hm (by omega) hml
        have := hTmin m.sum hm1 hm2
        omega
      · push_neg at hml
        have h9 : maxInt32 = 2147483647 := rfl
        have hms : m.length * smin ≤ m.sum :=
          length_mul_le_sum m smin (fun x hx => hsminle x (hm x hx))
        have hbig : 2147483647 * smin ≤ m.length * smin :=
          Nat.mul_le_mul_right smin (by omega)
        have hexp : 2147483647 * smin = 2147483646 * smin + smin := by ring
        have hgrow : (2147483646 : Nat) ≤ 2147483646 * smin :=
          Nat.le_mul_of_pos_right _ (by omega)
        -- m.sum < T ≤ q * smin ≤ A + smin - 1 < maxInt32 + smin - 1, while
        -- m.sum ≥ maxInt32 * smin = 2147483646 * smin + smin ≥ 2147483646 + smin
        omega
    · intro m hm hmsum
      by_cases hml : m.length < maxInt32
      · have hdpm := dp_complete sorted mt m hm (by omega) hml
        rw [hmsum] at hdpm
        omega
      · have hsen : (runDP sorted mt).dp T ≤ maxInt32 := runDP_dp_le_sentinel sorted mt T
        omega

theorem solver_master (S : List Nat) (amount : Int)
    (hS : S ≠ []) (hpos : ∀ s ∈ S, 1 ≤ s) (hA1 : 1 ≤ amount)
    (hA2 : amount.toNat < maxInt32) :
    ∃ l T, Calculate (NewCalculator S) amount = .ok (l, T) ∧
      CalculateWithDetails (NewCalculator S) amount = .ok (l, T, l.length) ∧
      Combo S l ∧ l.sum = T ∧ amount.toNat ≤ T ∧
      (∀ m, Combo S m → ¬(amount.toNat ≤ m.sum ∧ m.sum < T)) ∧
      (∀ m, Combo S m → m.sum = T → l.length ≤ m.length) := by
  have hperm : ((NewCalculator S).packSizes).Perm S :=
    List.mergeSort_perm S (fun a b => a ≤ b)
  have hmem : ∀ x, x ∈ (NewCalculator S).packSizes ↔ x ∈ S := fun x => hperm.mem_iff
  have hsne : (NewCalculator S).packSizes ≠ [] := by
    intro h
    rw [h] at hperm
    exact hS (List.nil_perm.mp hperm)
  have hpos' : ∀ x ∈ (NewCalculator S).packSizes, 1 ≤ x :=
    fun x hx => hpos x ((hmem x).mp hx)
  have hA1' : 1 ≤ amount.toNat := by omega
  obtain ⟨T, hfb, hrc, hrs, hTa, hitem, hpack⟩ :=
    solver_core (NewCalculator S).packSizes amount.toNat hsne hpos' hA1' hA2
  have hcalc : Calculate (NewCalculator S) amount =
      .ok (reconstruct
        (runDP (NewCalculator S).packSizes
          (amount.toNat + (NewCalculator S).packSizes.getLastD 0)).parent T T, T) := by
    rw [Calculate_valid (NewCalculator S) amount (by omega)
      (by simpa [List.isEmpty_iff] using hsne), hfb]
  refine ⟨_, T, hcalc, ?_, ?_, hrs, hTa, ?_, ?_⟩
  · unfold CalculateWithDetails
    rw [hcalc]
  · intro x hx
    exact (hmem x).mp (hrc x hx)
  · intro m hm
    exact hitem m (fun x hx => (hmem x).mpr (hm x hx))
  · intro m hm
    exact hpack m (fun x hx => (hmem x).mpr (hm x hx))

theorem list_length_eq_sum_count (l : List Nat) :
    l.length = ∑ s ∈ l.toFinset, l.count s := by
  have h := Multiset.toFinset_sum_count_eq (l : Multiset Nat)
  simp only [Multiset.quot_mk_to_coe, Multiset.coe_count, Multiset.coe_card] at h
  exact h.symm

theorem list_sum_eq_sum_count (l : List Nat) :
    l.sum = ∑ s ∈ l.toFinset, s * l.count s := by
  have h : l.sum = ∑ s ∈ l.toFinset, l.count s * s := by
    simpa [smul_eq_mul] using Finset.sum_list_count l
  rw [h]
  exact Finset.sum_congr rfl fun s _ => Nat.mul_comm _ _

/-- C1: for every amount `A` with `1 ≤ A ≤ 10000000` and every non-empty
list of positive pack sizes `S`, `Calculate` (and `CalculateWithDetails`)
succeeds and returns a multiset `M` (the counts of the returned usage
list) with every count at least 1, a total `T` and a pack count `P` such
that `T = Σ s·M[s]`, `P = Σ M[s]` and `T ≥ A`. -/
theorem calculate_returns_valid_solution (S : List Nat) (amount : Int)
    (hS : S ≠ []) (hpos : ∀ s ∈ S, 1 ≤ s) (hA1 : 1 ≤ amount)
    (hA2 : amount ≤ 10000000) :
    ∃ l T, Calculate (NewCalculator S) amount = .ok (l, T) ∧
      CalculateWithDetails (NewCalculator S) amount = .ok (l, T, l.length) ∧
      (∀ s ∈ l.toFinset, 1 ≤ l.count s) ∧
      T = ∑ s ∈ l.toFinset, s * l.count s ∧
      l.length = ∑ s ∈ l.toFinset, l.count s ∧
      amount ≤ (T : Int) ∧ Combo S l := by
  have h9 : maxInt32 = 2147483647 := rfl
  have hA2' : amount.toNat < maxInt32 := by omega
  obtain ⟨l, T, h1, h2, h3, h4, h5, _, _⟩ := solver_master S amount hS hpos hA1 hA2'
  refine ⟨l, T, h1, h2, ?_, ?_, list_length_eq_sum_count l, by omega, h3⟩
  · intro s hs
    have := List.count_pos_iff.mpr (List.mem_toFinset.mp hs)
    omega
  · rw [← h4]
    exact list_sum_eq_sum_count l

theorem calculate_returns_valid_solution_witness :
    ∃ l T, Calculate (NewCalculator [250]) 1 = .ok (l, T) ∧
      CalculateWithDetails (NewCalculator [250]) 1 = .ok (l, T, l.length) ∧
      (∀ s ∈ l.toFinset, 1 ≤ l.count s) ∧
      T = ∑ s ∈ l.toFinset, s * l.count s ∧
      l.length = ∑ s ∈ l.toFinset, l.count s ∧
      (1 : Int) ≤ (T : Int) ∧ Combo [250] l :=
  calculate_returns_valid_solution [250] 1 (by decide) (by decide) (by decide) (by decide)

/-- C2 (amended): for every amount `A` with `1 ≤ A ≤ 10000000` and every
non-empty list of positive pack sizes `S`, the pair `(T, P)` returned by
the solver is lexicographically minimal: no combination over `S` has a
total in `[A, T-1]`, and no combination summing exactly to `T` uses fewer
than `P` packs. -/
theorem calculate_lexicographically_optimal (S : List Nat) (amount : Int)
    (hS : S ≠ []) (hpos : ∀ s ∈ S, 1 ≤ s) (hA1 : 1 ≤ amount)
    (hA2 : amount ≤ 10000000) :
    ∃ l T, CalculateWithDetails (NewCalculator S) amount = .ok (l, T, l.length) ∧
      (∀ m, Combo S m → ¬(amount.toNat ≤ m.sum ∧ m.sum < T)) ∧
      (∀ m, Combo S m → m.sum = T → l.length ≤ m.length) := by
  have h9 : maxInt32 = 2147483647 := rfl
  have hA2' : amount.toNat < maxInt32 := by omega
  obtain ⟨l, T, _, h2, _, _, _, h6, h7⟩ := solver_master S amount hS hpos hA1 hA2'
  exact ⟨l, T, h2, h6, h7⟩

theorem calculate_lexicographically_optimal_witness :
    ∃ l T, CalculateWithDetails (NewCalculator [250]) 1 = .ok (l, T, l.length) ∧
      (∀ m, Combo [250] m → ¬((1 : Int).toNat ≤ m.sum ∧ m.sum < T)) ∧
      (∀ m, Combo [250] m → m.sum = T → l.length ≤ m.length) :=
  calculate_lexicographically_optimal [250] 1 (by decide) (by decide) (by decide)
    (by decide)

/-- C3 (amended): the solver fails exactly on invalid input — an
"amount must be positive" error when `A ≤ 0`, a "no pack sizes available"
error when `S` is empty, and for every `A` with `1 ≤ A ≤ 10000000` and
non-empty positive `S` it returns no error; in that range the
"no valid pack combination found" branch is unreachable. -/
theorem calculate_error_characterization :
    (∀ (S : List Nat) (amount : Int), amount ≤ 0 →
      Calculate (NewCalculator S) amount = .error "amount must be positive") ∧
    (∀ amount : Int, 1 ≤ amount →
      Calculate (NewCalculator []) amount = .error "no pack sizes available") ∧
    (∀ (S : List Nat) (amount : Int), S ≠ [] → (∀ s ∈ S, 1 ≤ s) →
      1 ≤ amount → amount ≤ 10000000 →
      ∃ l T, Calculate (NewCalculator S) amount = .ok (l, T)) := by
  refine ⟨?_, ?_, ?_⟩
  · intro S amount h
    unfold Calculate
    rw [if_pos h]
  · intro amount h
    have hnil : (NewCalculator []).packSizes = [] := List.mergeSort_eq_self (by simp)
    unfold Calculate
    rw [if_neg (by omega), hnil]
    rfl
  · intro S amount hS hpos hA1 hA2
    have h9 : maxInt32 = 2147483647 := rfl
    have hA2' : amount.toNat < maxInt32 := by omega
    obtain ⟨l, T, h1, _⟩ := solver_master S amount hS hpos hA1 hA2'
    exact ⟨l, T, h1⟩

theorem calculate_error_characterization_witness :
    ∃ l T, Calculate (NewCalculator [250]) 1 = .ok (l, T) :=
  calculate_error_characterization.2.2 [250] 1 (by decide) (by decide) (by decide)
    (by decide)

theorem reconstruct_succ (parent : Nat → Nat) (fuel current : Nat) :
    reconstruct parent (fuel + 1) current =
      if current = 0 then []
      else parent current :: reconstruct parent fuel (current - parent current) := rfl

theorem sum_eq_length_of_all_one (l : List Nat) (h : ∀ x ∈ l, x = 1) :
    l.sum = l.length := by
  induction l with
  | nil => rfl
  | cons a l ih =>
    have ha := h a (List.mem_cons_self a l)
    have := ih (fun x hx => h x (List.mem_cons_of_mem a hx))
    simp only [List.sum_cons, List.length_cons]
    omega

theorem combo_triple_counts (m : List Nat) (hm : Combo [23, 31, 53] m) :
    m.sum = 23 * m.count 23 + 31 * m.count 31 + 53 * m.count 53 ∧
    m.length = m.count 23 + m.count 31 + m.count 53 := by
  induction m with
  | nil => simp
  | cons a m ih =>
    have ha : a = 23 ∨ a = 31 ∨ a = 53 := by
      have := hm a (List.mem_cons_self a m)
      simpa using this
    obtain ⟨ih1, ih2⟩ := ih (fun x hx => hm x (List.mem_cons_of_mem a hx))
    constructor
    · rcases ha with rfl | rfl | rfl <;>
        simp [List.count_cons, ih1] <;> omega
    · rcases ha with rfl | rfl | rfl <;>
        simp [List.count_cons, ih2] <;> omega

/-- C8: on the adversarial input `A = 500000`, `S = {23, 31, 53}` the
solver returns total items `T = 500000`, total packs `P = 9438` and the
multiset `{23: 2, 31: 7, 53: 9429}`. -/
theorem calculate_edge_case_500000 :
    ∃ l, CalculateWithDetails (NewCalculator [23, 31, 53]) 500000 =
        .ok (l, 500000, 9438) ∧
      l.count 23 = 2 ∧ l.count 31 = 7 ∧ l.count 53 = 9429 ∧
      l.length = 9438 ∧ Combo [23, 31, 53] l := by
  obtain ⟨l, T, hcalc, hcwd, hcombo, hsum, hTa, hitem, hpack⟩ :=
    solver_master [23, 31, 53] 500000 (by decide) (by decide) (by decide) (by decide)
  have htoNat : ((500000 : Int)).toNat = 500000 := rfl
  rw [htoNat] at hTa hitem
  -- the witness combination 23·2 + 31·7 + 53·9429 = 500000 with 9438 packs
  set m0 : List Nat :=
    List.replicate 2 23 ++ List.replicate 7 31 ++ List.replicate 9429 53 with hm0
  have hm0c : Combo [23, 31, 53] m0 := by
    intro x hx
    rw [hm0] at hx
    rcases List.mem_append.mp hx with hx | hx
    · rcases List.mem_append.mp hx with hx | hx
      · simp [List.eq_of_mem_replicate hx]
      · simp [List.eq_of_mem_replicate hx]
    · simp [List.eq_of_mem_replicate hx]
  have hm0sum : m0.sum = 500000 := by
    rw [hm0, List.sum_append, List.sum_append, List.sum_replicate, List.sum_replicate,
      List.sum_replicate]
    simp only [smul_eq_mul]
  have hm0len : m0.length = 9438 := by
    rw [hm0, List.length_append, List.length_append, List.length_replicate,
      List.length_replicate, List.length_replicate]
  -- item optimality pins T = 500000
  have hT : T = 500000 := by
    have h1 := hitem m0 hm0c
    rw [hm0sum] at h1
    omega
  subst hT
  -- pack optimality pins the length, and the counts are forced
  have hlen : l.length ≤ 9438 := by
    have := hpack m0 hm0c hm0sum
    omega
  obtain ⟨hc1, hc2⟩ := combo_triple_counts l hcombo
  rw [hsum] at hc1
  have hcounts : l.count 23 = 2 ∧ l.count 31 = 7 ∧ l.count 53 = 9429 ∧
      l.length = 9438 := by
    set L := l.length with hL
    set a := l.count 23 with ha
    set b := l.count 31 with hb
    set c := l.count 53 with hc
    have h1 : 53 * L = 500000 + 30 * a + 22 * b := by omega
    have h2 : 9434 ≤ L := by omega
    have h3 : 30 * a + 22 * b ≤ 214 := by omega
    interval_cases L <;> omega
  refine ⟨l, ?_, hcounts.1, hcounts.2.1, hcounts.2.2.1, hcounts.2.2.2, hcombo⟩
  rw [hcwd, hcounts.2.2.2]

/-- C3 counterexample: the claim quantifies over every `A ≥ 1`, but at
`A = 2147483647` (`math.MaxInt32`) with `S = {1}` every total the scan
inspects needs at least `MaxInt32` packs, collides with the sentinel and
is treated as unreachable, so `Calculate` returns the `NoSolution`-style
error on a valid input. -/
theorem calculate_no_solution_at_sentinel :
    Calculate (NewCalculator [1]) 2147483647 =
      .error "no valid pack combination found" := by
  have h9 : maxInt32 = 2147483647 := rfl
  have hs : (NewCalculator [1]).packSizes = [1] := List.mergeSort_eq_self (by simp)
  have hdp : ∀ t, 2147483647 ≤ t →
      (runDP [1] (2147483647 + 1)).dp t = maxInt32 := by
    intro t ht
    by_contra hne
    obtain ⟨m, hmc, hmsum, hmlen⟩ := runDP_sound [1] (2147483647 + 1) t hne
    have hone : ∀ x ∈ m, x = 1 := by
      intro x hx
      simpa using hmc x hx
    have heq : m.sum = m.length := sum_eq_length_of_all_one m hone
    have hle : (runDP [1] (2147483647 + 1)).dp t ≤ maxInt32 :=
      runDP_dp_le_sentinel [1] (2147483647 + 1) t
    omega
  cases hfb : findBest (runDP [1] (2147483647 + 1)).dp 2147483647 1 with
  | some T =>
    obtain ⟨h1, _, h3, _⟩ := findBest_some _ _ _ T hfb
    exact absurd (hdp T h1) h3
  | none =>
    have hcv := Calculate_valid (NewCalculator [1]) 2147483647 (by omega)
      (by simp [hs])
    rw [hs] at hcv
    have hg : ([1] : List Nat).getLastD 0 = 1 := rfl
    have hA : ((2147483647 : Int)).toNat = 2147483647 := rfl
    rw [hg, hA] at hcv
    rw [hcv, hfb]

/-- C2 counterexample: the claim quantifies over every `A ≥ 1`, but at
`A = 2147483648` with `S = {1, 2147483649}` the only combination with
total `A` needs `A ≥ MaxInt32` packs, collides with the sentinel and is
skipped, so the solver returns `T = 2147483649` although the total
`2147483648 ∈ [A, T-1]` is reachable. -/
theorem calculate_item_optimality_fails_beyond_sentinel :
    Calculate (NewCalculator [1, 2147483649]) 2147483648 =
      .ok ([2147483649], 2147483649) ∧
    Combo [1, 2147483649] (List.replicate 2147483648 1) ∧
    (List.replicate 2147483648 1).sum = 2147483648 := by
  have h9 : maxInt32 = 2147483647 := rfl
  have hs : (NewCalculator [1, 2147483649]).packSizes = [1, 2147483649] :=
    List.mergeSort_eq_self (by simp)
  set mt : Nat := 2147483648 + 2147483649 with hmt
  -- every total below 2147483649 that the DP records would be an all-ones
  -- combination, whose pack count is the total itself — too large
  have hdplow : ∀ t, 2147483647 ≤ t → t < 2147483649 →
      (runDP [1, 2147483649] mt).dp t = maxInt32 := by
    intro t ht1 ht2
    by_contra hne
    obtain ⟨m, hmc, hmsum, hmlen⟩ := runDP_sound [1, 2147483649] mt t hne
    have hone : ∀ x ∈ m, x = 1 := by
      intro x hx
      have hx2 : x = 1 ∨ x = 2147483649 := by simpa using hmc x hx
      rcases hx2 with rfl | rfl
      · rfl
      · have := List.single_le_sum (l := m) (fun y _ => Nat.zero_le y) _ hx
        omega
    have heq : m.sum = m.length := sum_eq_length_of_all_one m hone
    have hle : (runDP [1, 2147483649] mt).dp t ≤ maxInt32 :=
      runDP_dp_le_sentinel [1, 2147483649] mt t
    omega
  have hcM : Combo [1, 2147483649] [2147483649] := by
    intro x hx
    simp only [List.mem_singleton] at hx
    simp [hx]
  have hdpM : (runDP [1, 2147483649] mt).dp 2147483649 ≤ 1 := by
    have h := dp_complete [1, 2147483649] mt [2147483649] hcM (by rw [hmt]; simp)
      (by simp [h9])
    have e1 : ([2147483649] : List Nat).sum = 2147483649 := by simp
    have e2 : ([2147483649] : List Nat).length = 1 := rfl
    rw [e1, e2] at h
    exact h
  have hdpMne : (runDP [1, 2147483649] mt).dp 2147483649 ≠ maxInt32 := by omega
  have hdpM1 : (runDP [1, 2147483649] mt).dp 2147483649 = 1 := by
    have := runDP_dp_pos [1, 2147483649] mt 2147483649 (by omega) hdpMne
    omega
  have hfb : findBest (runDP [1, 2147483649] mt).dp 2147483648 2147483649 =
      some 2147483649 := by
    cases hfb : findBest (runDP [1, 2147483649] mt).dp 2147483648 2147483649 with
    | none =>
      have := findBest_none _ _ _ hfb 2147483649 (by omega) (by omega)
      exact absurd this hdpMne
    | some T =>
      obtain ⟨h1, h2, h3, h4⟩ := findBest_some _ _ _ T hfb
      have hTM : T = 2147483649 := by
        by_cases hTA : T = 2147483648
        · subst hTA
          exact absurd (hdplow _ (by omega) (by omega)) h3
        · by_contra hcon
          have hgt : 2147483649 < T := by
            rcases Nat.lt_or_ge T 2147483649 with h | h
            · exact absurd (hdplow T (by omega) h) h3
            · omega
          exact hdpMne (h4 2147483649 (by omega) hgt)
      rw [hTM]
  -- the back-pointer at 2147483649 is the big pack itself
  have hpar : (runDP [1, 2147483649] mt).parent 2147483649 = 2147483649 := by
    obtain ⟨p1, p2, p3, _, p5, p6⟩ :=
      (runDP_inv [1, 2147483649] mt).2.2.2 2147483649 (by omega) hdpMne
    rw [hdpM1] at p5
    obtain ⟨m, _, hmsum, hmlen⟩ := runDP_sound [1, 2147483649] mt _ p6
    rw [p5] at hmlen
    have hml0 : m.length = 0 := by omega
    have hmnil : m = [] := List.length_eq_zero.mp hml0
    rw [hmnil] at hmsum
    simp only [List.sum_nil] at hmsum
    have hp2 : (runDP [1, 2147483649] mt).parent 2147483649 = 1 ∨
        (runDP [1, 2147483649] mt).parent 2147483649 = 2147483649 := by
      rcases List.mem_cons.mp p1 with h | h
      · exact Or.inl h
      · exact Or.inr (List.mem_singleton.mp h)
    rcases hp2 with h | h
    · omega
    · exact h
  have hrec : reconstruct (runDP [1, 2147483649] mt).parent 2147483649 2147483649 =
      [2147483649] := by
    show reconstruct (runDP [1, 2147483649] mt).parent (2147483648 + 1) 2147483649 =
      [2147483649]
    rw [reconstruct_succ, if_neg (by omega : ¬(2147483649 : Nat) = 0), hpar]
    have hsub : (2147483649 : Nat) - 2147483649 = 0 := by norm_num
    rw [hsub]
    have hnil : reconstruct (runDP [1, 2147483649] mt).parent 2147483648 0 = [] := by
      show reconstruct (runDP [1, 2147483649] mt).parent (2147483647 + 1) 0 = []
      rw [reconstruct_succ, if_pos rfl]
    rw [hnil]
  refine ⟨?_, ?_, ?_⟩
  · have hcv := Calculate_valid (NewCalculator [1, 2147483649]) 2147483648 (by omega)
      (by simp [hs])
    rw [hs] at hcv
    have hg : ([1, 2147483649] : List Nat).getLastD 0 = 2147483649 := rfl
    have hA : ((2147483648 : Int)).toNat = 2147483648 := rfl
    rw [hg, hA, ← hmt] at hcv
    rw [hcv, hfb]
    show Except.ok
      (reconstruct (runDP [1, 2147483649] mt).parent 2147483649 2147483649,
        2147483649) =
      Except.ok ([2147483649], 2147483649)
    rw [hrec]
  · intro x hx
    simp [List.eq_of_mem_replicate hx]
  · rw [List.sum_replicate, smul_eq_mul, Nat.mul_one]

/-! ## Cache counters, invalidation, handler limits, frame property -/

theorem get_counter_step (c : MemoryCache) (now : Nat) (key : String) :
    ((c.Get now key).2.hits = c.hits + 1 ∧ (c.Get now key).2.misses = c.misses) ∨
    ((c.Get now key).2.hits = c.hits ∧ (c.Get now key).2.misses = c.misses + 1) := by
  unfold MemoryCache.Get
  cases lookupItem c key with
  | none => right; exact ⟨rfl, rfl⟩
  | some item =>
    dsimp only
    by_cases h : now > item.expiration
    · right
      rw [if_pos h]
      exact ⟨rfl, rfl⟩
    · left
      rw [if_neg h]
      exact ⟨rfl, rfl⟩

theorem set_counter_step (c : MemoryCache) (now : Nat) (key : String)
    (packs : List (Nat × Nat)) (total : Nat) (ttl : Nat) :
    (c.Set now key packs total ttl).hits = c.hits ∧
    (c.Set now key packs total ttl).misses = c.misses := by
  unfold MemoryCache.Set
  cases lookupItem c key with
  | some item => exact ⟨rfl, rfl⟩
  | none =>
    by_cases h : c.items.length ≥ c.maxSize
    · rw [if_pos h]
      unfold evictLRU
      cases c.chain.getLast? with
      | none => exact ⟨rfl, rfl⟩
      | some k => exact ⟨rfl, rfl⟩
    · rw [if_neg h]
      exact ⟨rfl, rfl⟩

/-- C6 (amended): each completed `Get` increments exactly one of the two
counters, `Set` leaves both unchanged, `Clear` resets both to zero, and
over any `Clear`-free operation sequence hits + misses grows by exactly
the number of `Get` operations (so the counters are non-decreasing there
and hits + misses equals the number of completed `Get`s since
construction or the last `Clear`). -/
theorem cache_counter_accounting :
    (∀ (c : MemoryCache) (now : Nat) (key : String),
      ((c.Get now key).2.hits = c.hits + 1 ∧ (c.Get now key).2.misses = c.misses) ∨
      ((c.Get now key).2.hits = c.hits ∧ (c.Get now key).2.misses = c.misses + 1)) ∧
    (∀ (c : MemoryCache) (now : Nat) (key : String) (packs : List (Nat × Nat))
      (total ttl : Nat),
      (c.Set now key packs total ttl).hits = c.hits ∧
      (c.Set now key packs total ttl).misses = c.misses) ∧
    (∀ c : MemoryCache, c.Clear.hits = 0 ∧ c.Clear.misses = 0) ∧
    (∀ (c : MemoryCache) (ops : List CacheOp), (∀ op ∈ ops, isClear op = false) →
      (runOps c ops).hits + (runOps c ops).misses =
        c.hits + c.misses + ops.countP isGet) := by
  refine ⟨get_counter_step, set_counter_step, fun c => ⟨rfl, rfl⟩, ?_⟩
  intro c ops
  induction ops generalizing c with
  | nil =>
    intro _
    simp [runOps]
  | cons op rest ih =>
    intro h
    have hop := h op (List.mem_cons_self op rest)
    have hrest := ih (applyOp c op) (fun o ho => h o (List.mem_cons_of_mem op ho))
    have hrun : runOps c (op :: rest) = runOps (applyOp c op) rest := rfl
    rw [hrun, hrest, List.countP_cons]
    cases op with
    | get now key =>
      have hg := get_counter_step c now key
      have : applyOp c (CacheOp.get now key) = (c.Get now key).2 := rfl
      rw [this]
      rcases hg with ⟨h1, h2⟩ | ⟨h1, h2⟩ <;> rw [h1, h2] <;> simp [isGet] <;> ring
    | set now key packs total ttl =>
      have hs := set_counter_step c now key packs total ttl
      have : applyOp c (CacheOp.set now key packs total ttl) =
        c.Set now key packs total ttl := rfl
      rw [this, hs.1, hs.2]
      simp [isGet]
    | clear => simp [isClear] at hop

theorem cache_counter_accounting_witness :
    (runOps (NewMemoryCache 2) [CacheOp.get 0 "a"]).hits +
      (runOps (NewMemoryCache 2) [CacheOp.get 0 "a"]).misses =
      (NewMemoryCache 2).hits + (NewMemoryCache 2).misses +
        (List.countP isGet [CacheOp.get 0 "a"]) :=
  cache_counter_accounting.2.2.2 (NewMemoryCache 2) [CacheOp.get 0 "a"] (by decide)

/-- C6 counterexample: `Clear` resets the counters, so across a sequence
that contains a `Clear` the counters are not non-decreasing and
hits + misses no longer equals the number of completed `Get`s. -/
theorem cache_counter_reset_on_clear :
    (runOps (NewMemoryCache 2) [CacheOp.get 0 "a"]).misses = 1 ∧
    (runOps (NewMemoryCache 2) [CacheOp.get 0 "a", CacheOp.clear]).misses = 0 ∧
    (runOps (NewMemoryCache 2) [CacheOp.get 0 "a", CacheOp.clear]).hits +
      (runOps (NewMemoryCache 2) [CacheOp.get 0 "a", CacheOp.clear]).misses = 0 ∧
    List.countP isGet [CacheOp.get 0 "a", CacheOp.clear] = 1 := by
  refine ⟨rfl, rfl, rfl, rfl⟩

theorem get_on_cleared_cache (c : MemoryCache) (now : Nat) (key : String) :
    ((c.Clear.Get now key).1 = none) ∧
    (c.Clear.Get now key).2.misses = c.Clear.misses + 1 := by
  unfold MemoryCache.Clear MemoryCache.Get lookupItem
  simp [List.find?]

/-- C7: every successful add (201) or delete (200) of a pack size clears
the result cache before the handler returns, so the next calculate
request — for every amount, i.e. every key — misses the cache. -/
theorem mutation_clears_cache (st : AppState) (size : Int) :
    ((AddPackSize st size).1 = 201 →
      (AddPackSize st size).2.cache.items = [] ∧
      ∀ (now : Nat) (key : String),
        ((AddPackSize st size).2.cache.Get now key).1 = none) ∧
    ((DeletePackSize st size).1 = 200 →
      (DeletePackSize st size).2.cache.items = [] ∧
      ∀ (now : Nat) (key : String),
        ((DeletePackSize st size).2.cache.Get now key).1 = none) := by
  constructor
  · intro hst
    unfold AddPackSize at *
    by_cases h1 : size < 1
    · rw [if_pos h1] at hst
      simp at hst
    · rw [if_neg h1] at hst ⊢
      by_cases h2 : size ∈ st.packSizes
      · rw [if_pos h2] at hst
        simp at hst
      · rw [if_neg h2]
        exact ⟨rfl, fun now key => (get_on_cleared_cache st.cache now key).1⟩
  · intro hst
    unfold DeletePackSize at *
    by_cases h1 : size ∈ st.packSizes
    · rw [if_pos h1]
      exact ⟨rfl, fun now key => (get_on_cleared_cache st.cache now key).1⟩
    · rw [if_neg h1] at hst
      simp at hst

theorem mutation_clears_cache_witness :
    (AddPackSize ⟨[], NewMemoryCache 2⟩ 5).2.cache.items = [] ∧
    ((AddPackSize ⟨[], NewMemoryCache 2⟩ 5).2.cache.Get 0 "calc:7:5").1 = none :=
  ⟨((mutation_clears_cache ⟨[], NewMemoryCache 2⟩ 5).1 (by decide)).1,
   ((mutation_clears_cache ⟨[], NewMemoryCache 2⟩ 5).1 (by decide)).2 0 "calc:7:5"⟩

/-- C9 (amended): the order-history handler asks the journal for the
query parameter `N` whenever it parses and is positive, and for the
default 100 when the parameter is absent, unparsable or non-positive;
there is no upper cap — values above 1000 are passed through unchanged. -/
theorem getOrdersLimit_spec :
    getOrdersLimit "" = 100 ∧
    (∀ s : String, s ≠ "" → Atoi s = none → getOrdersLimit s = 100) ∧
    (∀ (s : String) (l : Int), s ≠ "" → Atoi s = some l → 0 < l →
      getOrdersLimit s = l) ∧
    (∀ (s : String) (l : Int), s ≠ "" → Atoi s = some l → l ≤ 0 →
      getOrdersLimit s = 100) := by
  refine ⟨rfl, ?_, ?_, ?_⟩
  · intro s hs h
    unfold getOrdersLimit
    rw [if_neg hs, h]
  · intro s l hs h hl
    unfold getOrdersLimit
    rw [if_neg hs, h]
    exact if_pos hl
  · intro s l hs h hl
    unfold getOrdersLimit
    rw [if_neg hs, h]
    exact if_neg (by omega)

theorem getOrdersLimit_spec_witness : getOrdersLimit "7" = 7 :=
  getOrdersLimit_spec.2.2.1 "7" 7 (by decide) (by decide) (by decide)

/-- C9 counterexample: a requested limit of 5000 is not capped at 1000 —
the handler passes 5000 to the journal query. -/
theorem getOrdersLimit_not_capped :
    getOrdersLimit "5000" = 5000 ∧ ¬getOrdersLimit "5000" ≤ 1000 := by
  refine ⟨?_, ?_⟩ <;> decide

/-- C10: `NewCalculator` copies the caller's slice before sorting it
ascending, so the caller's slice is element-for-element unchanged after
construction, while the calculator holds a sorted permutation of it;
`Calculate` is a pure reader of the calculator and cannot mutate the
slice, which the explicit-effect embedding `NewCalculatorWithCaller`
records. -/
theorem newCalculator_preserves_caller_slice (packSizes : List Nat) :
    (NewCalculatorWithCaller packSizes).2 = packSizes ∧
    (NewCalculatorWithCaller packSizes).1 = NewCalculator packSizes ∧
    List.Sorted (· ≤ ·) (NewCalculator packSizes).packSizes ∧
    ((NewCalculator packSizes).packSizes).Perm packSizes := by
  refine ⟨rfl, rfl, ?_, List.mergeSort_perm packSizes _⟩
  exact List.sorted_mergeSort' packSizes

/-! ## LRU capacity and recency -/

theorem key_mem_map (items : List (String × CacheItem)) (x : String) :
    x ∈ items.map Prod.fst ↔ ∃ it, (x, it) ∈ items := by
  rw [List.mem_map]
  constructor
  · rintro ⟨⟨a, b⟩, hp, rfl⟩
    exact ⟨b, hp⟩
  · rintro ⟨it, hit⟩
    exact ⟨(x, it), hit, rfl⟩

theorem eraseP_key_iff (items : List (String × CacheItem)) (k : String)
    (hnd : (items.map Prod.fst).Nodup) (hk : ∃ it, (k, it) ∈ items) (x : String) :
    (∃ it, (x, it) ∈ items.eraseP (fun p => p.1 == k)) ↔
    ((∃ it, (x, it) ∈ items) ∧ x ≠ k) := by
  induction items with
  | nil => simp at hk
  | cons a rest ih =>
    rw [List.map_cons, List.nodup_cons] at hnd
    obtain ⟨hnd1, hnd2⟩ := hnd
    by_cases ha : a.1 = k
    · have he : (a :: rest).eraseP (fun p => p.1 == k) = rest :=
        List.eraseP_cons_of_pos (by simp [ha])
      rw [he]
      constructor
      · rintro ⟨it, hit⟩
        have hxr : x ∈ rest.map Prod.fst := (key_mem_map rest x).mpr ⟨it, hit⟩
        refine ⟨⟨it, List.mem_cons_of_mem a hit⟩, fun hxk => ?_⟩
        rw [hxk, ← ha] at hxr
        exact hnd1 hxr
      · rintro ⟨⟨it, hit⟩, hxk⟩
        rcases List.mem_cons.mp hit with heq | hmem
        · have : x = a.1 := congrArg Prod.fst heq
          rw [ha] at this
          exact absurd this hxk
        · exact ⟨it, hmem⟩
    · have he : (a :: rest).eraseP (fun p => p.1 == k) =
          a :: rest.eraseP (fun p => p.1 == k) :=
        List.eraseP_cons_of_neg (by simp [ha])
      have hk2 : ∃ it, (k, it) ∈ rest := by
        obtain ⟨it, hit⟩ := hk
        rcases List.mem_cons.mp hit with heq | hmem
        · exact absurd (congrArg Prod.fst heq).symm ha
        · exact ⟨it, hmem⟩
      rw [he]
      constructor
      · rintro ⟨it, hit⟩
        rcases List.mem_cons.mp hit with heq | hmem
        · have hxa : x = a.1 := congrArg Prod.fst heq
          refine ⟨⟨it, ?_⟩, by rw [hxa]; exact ha⟩
          rw [heq]
          exact List.mem_cons_self a rest
        · obtain ⟨⟨it2, h2⟩, hxk⟩ := (ih hnd2 hk2).mp ⟨it, hmem⟩
          exact ⟨⟨it2, List.mem_cons_of_mem a h2⟩, hxk⟩
      · rintro ⟨⟨it, hit⟩, hxk⟩
        rcases List.mem_cons.mp hit with heq | hmem
        · refine ⟨it, ?_⟩
          rw [heq]
          exact List.mem_cons_self a _
        · obtain ⟨it2, h2⟩ := (ih hnd2 hk2).mpr ⟨⟨it, hmem⟩, hxk⟩
          exact ⟨it2, List.mem_cons_of_mem a h2⟩

theorem evictLRU_eq (c : MemoryCache) (h : c.chain ≠ []) :
    evictLRU c =
      { c with chain := c.chain.dropLast
               items := c.items.eraseP (fun p => p.1 == c.chain.getLast h) } := by
  unfold evictLRU
  rw [List.getLast?_eq_getLast c.chain h]

theorem Set_fresh_evict (c : MemoryCache) (now : Nat) (key : String)
    (packs : List (Nat × Nat)) (total ttl : Nat)
    (h : lookupItem c key = none) (hfull : c.items.length ≥ c.maxSize) :
    c.Set now key packs total ttl =
      { evictLRU c with
        items := (key, ⟨packs, total, now + ttl⟩) :: (evictLRU c).items
        chain := key :: (evictLRU c).chain } := by
  unfold MemoryCache.Set
  rw [h]
  dsimp only
  rw [if_pos hfull]

theorem Set_fresh_room (c : MemoryCache) (now : Nat) (key : String)
    (packs : List (Nat × Nat)) (total ttl : Nat)
    (h : lookupItem c key = none) (hfull : ¬c.items.length ≥ c.maxSize) :
    c.Set now key packs total ttl =
      { c with
        items := (key, ⟨packs, total, now + ttl⟩) :: c.items
        chain := key :: c.chain } := by
  unfold MemoryCache.Set
  rw [h]
  dsimp only
  rw [if_neg hfull]

theorem setFresh_inv (C : Nat) (hC : 1 ≤ C) (done : List String) (st : MemoryCache)
    (hinv : CacheInv C done st) (hdnd : done.Nodup) (e : SetOp)
    (hfresh : e.1 ∉ done) :
    CacheInv C (e.1 :: done) (applySet st e) := by
  obtain ⟨hms, hch, hnd, hlen, hmem⟩ := hinv
  have hkchain : e.1 ∉ st.chain := by
    rw [hch]
    intro h
    exact hfresh (List.take_subset C done h)
  have hkitems : ∀ it, (e.1, it) ∉ st.items := by
    intro it hit
    exact hkchain ((hmem e.1).mp ⟨it, hit⟩)
  have hlook : lookupItem st e.1 = none := by
    unfold lookupItem
    rw [List.find?_eq_none.mpr]
    · rfl
    · rintro ⟨p1, p2⟩ hp hbe
      simp only [beq_iff_eq] at hbe
      rw [hbe] at hp
      exact hkitems p2 hp
  have hchnd : st.chain.Nodup := by
    rw [hch]
    exact (List.take_sublist C done).nodup hdnd
  have hchlen : st.chain.length = min done.length C := by
    rw [hch, List.length_take, Nat.min_comm]
  unfold applySet
  by_cases hfull : st.items.length ≥ st.maxSize
  · -- at capacity: evict the tail, then insert at the head
    have hCle : C ≤ done.length := by
      rw [hms] at hfull
      omega
    have hclen : st.chain.length = C := by omega
    have hchne : st.chain ≠ [] := by
      intro h0
      rw [h0] at hclen
      simp at hclen
      omega
    rw [Set_fresh_evict st e.2.1 e.1 e.2.2.1 e.2.2.2.1 e.2.2.2.2 hlook hfull,
      evictLRU_eq st hchne]
    set k := st.chain.getLast hchne with hkdef
    have hkmem : k ∈ st.chain := List.getLast_mem hchne
    have hkit : ∃ it, (k, it) ∈ st.items := (hmem k).mpr hkmem
    have hsplit : st.chain.dropLast ++ [k] = st.chain :=
      List.dropLast_append_getLast hchne
    have hknotdrop : k ∉ st.chain.dropLast := by
      intro hin
      have := hchnd
      rw [← hsplit] at this
      obtain ⟨-, -, hdisj⟩ := List.nodup_append.mp this
      exact hdisj hin (List.mem_singleton.mpr rfl)
    have herasedlen : (st.items.eraseP (fun p => p.1 == k)).length + 1 =
        st.items.length := by
      obtain ⟨it, hit⟩ := hkit
      exact List.length_eraseP_add_one hit (by simp)
    have hdropchain : st.chain.dropLast = done.take (C - 1) := by
      rw [List.dropLast_eq_take, hclen, hch, List.take_take]
      congr 1
      omega
    refine ⟨hms, ?_, ?_, ?_, ?_⟩
    · -- the new chain is the C most recent keys
      show e.1 :: st.chain.dropLast = (e.1 :: done).take C
      rw [show C = (C - 1) + 1 by omega, List.take_succ_cons, hdropchain]
    · -- keys stay duplicate-free
      show ((( e.1, _) :: st.items.eraseP (fun p => p.1 == k)).map Prod.fst).Nodup
      rw [List.map_cons, List.nodup_cons]
      constructor
      · intro hin
        obtain ⟨it, hit⟩ := (key_mem_map _ e.1).mp hin
        have hsub : (st.items.eraseP (fun p => p.1 == k)).Sublist st.items :=
          List.eraseP_sublist st.items
        exact hkitems it (hsub.mem hit)
      · exact ((List.eraseP_sublist st.items).map Prod.fst).nodup hnd
    · -- map and chain sizes agree
      show ((e.1, _) :: st.items.eraseP (fun p => p.1 == k)).length =
        (e.1 :: st.chain.dropLast).length
      simp only [List.length_cons]
      rw [List.length_dropLast]
      omega
    · -- present keys are exactly the chained keys
      intro x
      show (∃ it, (x, it) ∈ (e.1, _) :: st.items.eraseP (fun p => p.1 == k)) ↔
        x ∈ e.1 :: st.chain.dropLast
      constructor
      · rintro ⟨it, hit⟩
        rcases List.mem_cons.mp hit with heq | hmemx
        · have : x = e.1 := congrArg Prod.fst heq
          rw [this]
          exact List.mem_cons_self _ _
        · obtain ⟨hold, hxk⟩ := (eraseP_key_iff st.items k hnd hkit x).mp ⟨it, hmemx⟩
          have hxchain : x ∈ st.chain := (hmem x).mp hold
          rw [← hsplit] at hxchain
          rcases List.mem_append.mp hxchain with hdrop | hlast
          · exact List.mem_cons_of_mem _ hdrop
          · exact absurd (List.mem_singleton.mp hlast) hxk
      · intro hx
        rcases List.mem_cons.mp hx with rfl | hdrop
        · exact ⟨_, List.mem_cons_self _ _⟩
        · have hxchain : x ∈ st.chain := by
            rw [← hsplit]
            exact List.mem_append.mpr (Or.inl hdrop)
          have hxk : x ≠ k := by
            intro h0
            rw [h0] at hdrop
            exact hknotdrop hdrop
          obtain ⟨it, hit⟩ :=
            (eraseP_key_iff st.items k hnd hkit x).mpr ⟨(hmem x).mpr hxchain, hxk⟩
          exact ⟨it, List.mem_cons_of_mem _ hit⟩
  · -- below capacity: plain insert at the head
    have hlt : done.length < C := by
      rw [hms] at hfull
      omega
    have htdone : done.take C = done := List.take_of_length_le (by omega)
    rw [Set_fresh_room st e.2.1 e.1 e.2.2.1 e.2.2.2.1 e.2.2.2.2 hlook hfull]
    refine ⟨hms, ?_, ?_, ?_, ?_⟩
    · show e.1 :: st.chain = (e.1 :: done).take C
      rw [hch, htdone, show C = (C - 1) + 1 by omega, List.take_succ_cons,
        List.take_of_length_le (by omega)]
    · show (((e.1, _) :: st.items).map Prod.fst).Nodup
      rw [List.map_cons, List.nodup_cons]
      refine ⟨?_, hnd⟩
      intro hin
      obtain ⟨it, hit⟩ := (key_mem_map _ e.1).mp hin
      exact hkitems it hit
    · show ((e.1, _) :: st.items).length = (e.1 :: st.chain).length
      simp only [List.length_cons]
      omega
    · intro x
      show (∃ it, (x, it) ∈ (e.1, _) :: st.items) ↔ x ∈ e.1 :: st.chain
      constructor
      · rintro ⟨it, hit⟩
        rcases List.mem_cons.mp hit with heq | hmemx
        · have : x = e.1 := congrArg Prod.fst heq
          rw [this]
          exact List.mem_cons_self _ _
        · exact List.mem_cons_of_mem _ ((hmem x).mp ⟨it, hmemx⟩)
      · intro hx
        rcases List.mem_cons.mp hx with rfl | hxc
        · exact ⟨_, List.mem_cons_self _ _⟩
        · obtain ⟨it, hit⟩ := (hmem x).mpr hxc
          exact ⟨it, List.mem_cons_of_mem _ hit⟩

theorem foldSets_inv (C : Nat) (hC : 1 ≤ C) :
    ∀ (es : List SetOp) (done : List String) (st : MemoryCache),
    CacheInv C done st → done.Nodup → (∀ e ∈ es, e.1 ∉ done) → (keysOf es).Nodup →
    CacheInv C ((keysOf es).reverse ++ done) (es.foldl applySet st) := by
  intro es
  induction es with
  | nil =>
    intro done st hinv hdnd _ _
    simpa [keysOf] using hinv
  | cons e rest ih =>
    intro done st hinv hdnd hdis hknd
    rw [keysOf, List.map_cons] at hknd
    obtain ⟨hknd1, hknd2⟩ := List.nodup_cons.mp hknd
    have hkfresh : e.1 ∉ done := hdis e (List.mem_cons_self e rest)
    have hstep := setFresh_inv C hC done st hinv hdnd e hkfresh
    have hdnd2 : (e.1 :: done).Nodup := List.nodup_cons.mpr ⟨hkfresh, hdnd⟩
    have hdis2 : ∀ e2 ∈ rest, e2.1 ∉ e.1 :: done := by
      intro e2 he2 hmem2
      rcases List.mem_cons.mp hmem2 with h | h
      · have : e2.1 ∈ rest.map (fun e => e.1) := List.mem_map.mpr ⟨e2, he2, rfl⟩
        rw [h] at this
        exact hknd1 this
      · exact hdis e2 (List.mem_cons_of_mem e he2) h
    have hres := ih (e.1 :: done) (applySet st e) hstep hdnd2 hdis2 hknd2
    have heq : (keysOf (e :: rest)).reverse ++ done =
        (keysOf rest).reverse ++ (e.1 :: done) := by
      rw [keysOf, List.map_cons, List.reverse_cons, List.append_assoc,
        List.singleton_append]
      rfl
    rw [heq]
    exact hres

/-- C5 (amended): for every capacity `C ≥ 1` and every sequence of `Set`
calls with distinct keys against a fresh cache of capacity `C`, the cache
never holds more than `C` entries, its recency chain is exactly the `C`
most recently inserted keys (most recent first), and a key is present in
the map precisely when it is among those `C` keys — every earlier key has
been evicted. -/
theorem cache_lru_capacity_bound (C : Nat) (hC : 1 ≤ C) (es : List SetOp)
    (hnd : (keysOf es).Nodup) :
    (runSets C es).items.length ≤ C ∧
    (runSets C es).chain = ((keysOf es).reverse).take C ∧
    (∀ key, (∃ it, (key, it) ∈ (runSets C es).items) ↔
      key ∈ ((keysOf es).reverse).take C) := by
  have hinit : CacheInv C [] (NewMemoryCache C) := by
    refine ⟨rfl, by simp [NewMemoryCache], List.nodup_nil, by simp [NewMemoryCache], ?_⟩
    intro x
    simp [NewMemoryCache]
  have h := foldSets_inv C hC es [] (NewMemoryCache C) hinit List.nodup_nil
    (by intro e _ h; exact absurd h (List.not_mem_nil _)) hnd
  rw [List.append_nil] at h
  obtain ⟨hms, hch, hnd2, hlen, hmem⟩ := h
  rw [hch] at hmem
  have hrun : runSets C es = es.foldl applySet (NewMemoryCache C) := rfl
  rw [hrun]
  refine ⟨?_, hch, hmem⟩
  rw [hlen, hch, List.length_take]
  omega

theorem cache_lru_capacity_bound_witness :
    (runSets 1 [(("a" : String), 0, ([] : List (Nat × Nat)), 0, 0)]).items.length ≤ 1 ∧
    (runSets 1 [(("a" : String), 0, ([] : List (Nat × Nat)), 0, 0)]).chain =
      ((keysOf [(("a" : String), 0, ([] : List (Nat × Nat)), 0, 0)]).reverse).take 1 ∧
    (∀ key,
      (∃ it, (key, it) ∈
        (runSets 1 [(("a" : String), 0, ([] : List (Nat × Nat)), 0, 0)]).items) ↔
      key ∈ ((keysOf [(("a" : String), 0, ([] : List (Nat × Nat)), 0, 0)]).reverse).take 1) :=
  cache_lru_capacity_bound 1 (by decide)
    [(("a" : String), 0, ([] : List (Nat × Nat)), 0, 0)] (by decide)

/-- C5 counterexample: the claim as stated quantifies over every
capacity, but with capacity `C = 0` a single insert leaves one entry in
the cache — the size exceeds `C`, because eviction on an empty chain is a
no-op and the insert proceeds regardless. -/
theorem cache_capacity_zero_exceeded :
    ¬((NewMemoryCache 0).Set 0 "a" [] 0 0).items.length ≤ 0 := by decide

/-! ## Decimal rendering: `Itoa` and the cache key -/

theorem natChars_lt (n : Nat) (h : n < 10) : natChars n = [Nat.digitChar n] := by
  rw [natChars]
  rw [dif_pos h]

theorem natChars_ge (n : Nat) (h : ¬n < 10) :
    natChars n = natChars (n / 10) ++ [Nat.digitChar (n % 10)] := by
  rw [natChars]
  rw [dif_neg h]

theorem digitChar_val (d : Nat) (h : d < 10) : (Nat.digitChar d).toNat - 48 = d := by
  interval_cases d <;> decide

theorem digitChar_isDigit (d : Nat) (h : d < 10) : (Nat.digitChar d).isDigit = true := by
  interval_cases d <;> decide

theorem toDigitsCore_eq :
    ∀ (n fuel : Nat) (ds : List Char), n < fuel →
    Nat.toDigitsCore 10 fuel n ds = natChars n ++ ds := by
  intro n
  induction n using Nat.strong_induction_on with
  | _ n ih =>
    intro fuel ds hlt
    obtain ⟨f, rfl⟩ : ∃ f, fuel = f + 1 := ⟨fuel - 1, by omega⟩
    simp only [Nat.toDigitsCore]
    by_cases h0 : n / 10 = 0
    · rw [if_pos h0]
      have h10 : n < 10 := by omega
      rw [natChars_lt n h10, Nat.mod_eq_of_lt h10, List.singleton_append]
    · rw [if_neg h0]
      have h10 : ¬n < 10 := by omega
      rw [ih (n / 10) (by omega) f (Nat.digitChar (n % 10) :: ds) (by omega),
        natChars_ge n h10, List.append_assoc, List.singleton_append]

theorem repr_data (n : Nat) : (Nat.repr n).data = natChars n := by
  unfold Nat.repr Nat.toDigits
  rw [toDigitsCore_eq n (n + 1) [] (by omega), List.append_nil]
  rfl

theorem charsVal_append (cs : List Char) (c : Char) :
    charsVal (cs ++ [c]) = 10 * charsVal cs + (c.toNat - 48) := by
  unfold charsVal
  rw [List.foldl_append]
  rfl

theorem charsVal_natChars : ∀ n : Nat, charsVal (natChars n) = n := by
  intro n
  induction n using Nat.strong_induction_on with
  | _ n ih =>
    by_cases h : n < 10
    · rw [natChars_lt n h]
      have hd := digitChar_val n h
      show 10 * 0 + ((Nat.digitChar n).toNat - 48) = n
      omega
    · rw [natChars_ge n h, charsVal_append, ih (n / 10) (by omega),
        digitChar_val (n % 10) (by omega)]
      omega

theorem natChars_inj (a b : Nat) (h : natChars a = natChars b) : a = b := by
  have ha := charsVal_natChars a
  rw [h, charsVal_natChars b] at ha
  omega

theorem natChars_ne_nil (n : Nat) : natChars n ≠ [] := by
  by_cases h : n < 10
  · rw [natChars_lt n h]
    simp
  · rw [natChars_ge n h]
    simp

theorem natChars_isDigit : ∀ (n : Nat), ∀ c ∈ natChars n, c.isDigit = true := by
  intro n
  induction n using Nat.strong_induction_on with
  | _ n ih =>
    intro c hc
    by_cases h : n < 10
    · rw [natChars_lt n h] at hc
      rw [List.mem_singleton.mp hc]
      exact digitChar_isDigit n h
    · rw [natChars_ge n h] at hc
      rcases List.mem_append.mp hc with hc | hc
      · exact ih (n / 10) (by omega) c hc
      · rw [List.mem_singleton.mp hc]
        exact digitChar_isDigit (n % 10) (by omega)

theorem isDigit_ne_sep (c : Char) (h : c.isDigit = true) :
    c ≠ ':' ∧ c ≠ ',' ∧ c ≠ '-' := by
  refine ⟨?_, ?_, ?_⟩ <;> intro he <;> rw [he] at h <;> exact absurd h (by decide)

theorem int_toString_data (i : Int) : (toString i).data = intChars i := by
  cases i with
  | ofNat m =>
    show (Nat.repr m).data = natChars m
    exact repr_data m
  | negSucc m =>
    show ("-" ++ toString (m + 1 : Nat)).data = '-' :: natChars (m + 1)
    rw [String.data_append]
    have h1 : toString (m + 1 : Nat) = Nat.repr (m + 1) := rfl
    rw [h1, repr_data]
    rfl

theorem intChars_ne_nil (i : Int) : intChars i ≠ [] := by
  cases i with
  | ofNat m => exact natChars_ne_nil m
  | negSucc m => simp [intChars]

theorem intChars_no_sep (i : Int) : ∀ c ∈ intChars i, c ≠ ':' ∧ c ≠ ',' := by
  cases i with
  | ofNat m =>
    intro c hc
    have h := isDigit_ne_sep c (natChars_isDigit m c hc)
    exact ⟨h.1, h.2.1⟩
  | negSucc m =>
    intro c hc
    simp only [intChars] at hc
    rcases List.mem_cons.mp hc with rfl | hc
    · exact ⟨by decide, by decide⟩
    · have h := isDigit_ne_sep c (natChars_isDigit (m + 1) c hc)
      exact ⟨h.1, h.2.1⟩

theorem intChars_inj (a b : Int) (h : intChars a = intChars b) : a = b := by
  cases a with
  | ofNat m =>
    cases b with
    | ofNat m' =>
      simp only [intChars] at h
      exact congrArg Int.ofNat (natChars_inj m m' h)
    | negSucc m' =>
      exfalso
      simp only [intChars] at h
      have hmem : '-' ∈ natChars m := by
        rw [h]
        exact List.mem_cons_self _ _
      exact (isDigit_ne_sep _ (natChars_isDigit m '-' hmem)).2.2 rfl
  | negSucc m =>
    cases b with
    | ofNat m' =>
      exfalso
      simp only [intChars] at h
      have hmem : '-' ∈ natChars m' := by
        rw [← h]
        exact List.mem_cons_self _ _
      exact (isDigit_ne_sep _ (natChars_isDigit m' '-' hmem)).2.2 rfl
    | negSucc m' =>
      simp only [intChars, List.cons.injEq] at h
      have := natChars_inj (m + 1) (m' + 1) h.2
      have hm : m = m' := by omega
      rw [hm]

theorem split_at_sep (sep : Char) :
    ∀ (xs xs' ys ys' : List Char), (∀ c ∈ xs, c ≠ sep) → (∀ c ∈ xs', c ≠ sep) →
    xs ++ sep :: ys = xs' ++ sep :: ys' → xs = xs' ∧ ys = ys' := by
  intro xs
  induction xs with
  | nil =>
    intro xs' ys ys' _ hxs' h
    cases xs' with
    | nil =>
      simp only [List.nil_append, List.cons.injEq] at h
      exact ⟨rfl, h.2⟩
    | cons a xs' =>
      simp only [List.nil_append, List.cons_append, List.cons.injEq] at h
      exact absurd h.1.symm (hxs' a (List.mem_cons_self a xs'))
  | cons a xs ih =>
    intro xs' ys ys' hxs hxs' h
    cases xs' with
    | nil =>
      simp only [List.cons_append, List.nil_append, List.cons.injEq] at h
      exact absurd h.1 (hxs a (List.mem_cons_self a xs))
    | cons b xs' =>
      simp only [List.cons_append, List.cons.injEq] at h
      obtain ⟨hab, htail⟩ := h
      obtain ⟨h1, h2⟩ := ih xs' ys ys'
        (fun c hc => hxs c (List.mem_cons_of_mem a hc))
        (fun c hc => hxs' c (List.mem_cons_of_mem b hc)) htail
      exact ⟨by rw [hab, h1], h2⟩

theorem sizesPart_data_single (s : Int) : (sizesPart [s]).data = intChars s :=
  int_toString_data s

theorem sizesPart_data_cons2 (s s2 : Int) (rest : List Int) :
    (sizesPart (s :: s2 :: rest)).data =
      intChars s ++ ',' :: (sizesPart (s2 :: rest)).data := by
  show ((toString s ++ "," ++ sizesPart (s2 :: rest)) : String).data = _
  rw [String.data_append, String.data_append, int_toString_data, List.append_assoc]
  rfl

theorem sizesPart_data_ne_nil (S : List Int) (h : S ≠ []) :
    (sizesPart S).data ≠ [] := by
  cases S with
  | nil => exact absurd rfl h
  | cons s rest =>
    cases rest with
    | nil =>
      rw [sizesPart_data_single]
      exact intChars_ne_nil s
    | cons s2 rest2 =>
      rw [sizesPart_data_cons2]
      intro hc
      exact intChars_ne_nil s (List.append_eq_nil.mp hc).1

theorem sizesPart_inj : ∀ S S' : List Int,
    (sizesPart S).data = (sizesPart S').data → S = S' := by
  intro S
  induction S with
  | nil =>
    intro S' h
    cases S' with
    | nil => rfl
    | cons s' rest' =>
      exact absurd h.symm (sizesPart_data_ne_nil (s' :: rest') (by simp))
  | cons s rest ih =>
    intro S' h
    cases S' with
    | nil => exact absurd h (sizesPart_data_ne_nil (s :: rest) (by simp))
    | cons s' rest' =>
      cases rest with
      | nil =>
        cases rest' with
        | nil =>
          rw [sizesPart_data_single, sizesPart_data_single] at h
          rw [intChars_inj s s' h]
        | cons s2' rest2' =>
          exfalso
          rw [sizesPart_data_single, sizesPart_data_cons2] at h
          have hmem : ',' ∈ intChars s := by
            rw [h]
            exact List.mem_append.mpr (Or.inr (List.mem_cons_self _ _))
          exact (intChars_no_sep s ',' hmem).2 rfl
      | cons s2 rest2 =>
        cases rest' with
        | nil =>
          exfalso
          rw [sizesPart_data_cons2, sizesPart_data_single] at h
          have hmem : ',' ∈ intChars s' := by
            rw [← h]
            exact List.mem_append.mpr (Or.inr (List.mem_cons_self _ _))
          exact (intChars_no_sep s' ',' hmem).2 rfl
        | cons s2' rest2' =>
          rw [sizesPart_data_cons2, sizesPart_data_cons2] at h
          obtain ⟨h1, h2⟩ := split_at_sep ',' _ _ _ _
            (fun c hc => (intChars_no_sep s c hc).2)
            (fun c hc => (intChars_no_sep s' c hc).2) h
          rw [intChars_inj s s' h1, ih (s2' :: rest2') h2]

/-- C4 (amended): `GenerateCacheKey` embeds the amount and the ordered
size list verbatim, so two keys are equal exactly when the amount and the
size sequence are equal; in particular inputs differing in the amount or
in the sizes as a set produce different keys, but the function does not
canonicalize order — two orderings of the same sizes give different keys
(callers pass the store's ascending-sorted slice). -/
theorem generateCacheKey_inj (A A' : Int) (S S' : List Int) :
    GenerateCacheKey A S = GenerateCacheKey A' S' ↔ A = A' ∧ S = S' := by
  constructor
  · intro h
    have hdata := congrArg String.data h
    unfold GenerateCacheKey at hdata
    rw [String.data_append, String.data_append, String.data_append,
      String.data_append, String.data_append, String.data_append,
      int_toString_data, int_toString_data] at hdata
    simp only [List.append_assoc] at hdata
    have hdata2 := List.append_cancel_left hdata
    rw [List.singleton_append, List.singleton_append] at hdata2
    obtain ⟨h1, h2⟩ := split_at_sep ':' _ _ _ _
      (fun c hc => (intChars_no_sep A c hc).1)
      (fun c hc => (intChars_no_sep A' c hc).1) hdata2
    exact ⟨intChars_inj A A' h1, sizesPart_inj S S' h2⟩
  · rintro ⟨rfl, rfl⟩
    rfl

/-- C4 counterexample: the key function does not canonicalize the order
of the pack sizes — two permutations of the same set of sizes produce
different key strings. -/
theorem generateCacheKey_order_sensitive :
    GenerateCacheKey 5 [2, 3] ≠ GenerateCacheKey 5 [3, 2] := by decide

end PackCalc
